import Mathlib

/-!
Verification development for the jsontable-viewer repository.

The JavaScript source (src/scripts/json-parser.js) is shallowly embedded:
JSON values become the inductive type `Value` (JS numbers are modelled as
exact rationals, which agrees with JS observable behaviour on the finite
decimal literals reachable from `JSON.parse`), JS objects become ordered
association lists (the order being the JS own-property enumeration order),
and the fallible table-extraction code returns `Except`.  `Array.prototype.sort`
(ECMAScript: a stable sort driven by a user comparator) is modelled by a
stable insertion sort `jsStableSort`.
-/

namespace JsonTable

/-- JSON value as produced by `JSON.parse`: null, boolean, number, string,
array, or object (ordered fields, as JS preserves enumeration order). -/
inductive Value where
  | null : Value
  | bool (b : Bool) : Value
  | num (q : ℚ) : Value
  | str (s : String) : Value
  | arr (elems : List Value) : Value
  | obj (fields : List (String × Value)) : Value
  deriving Repr

/-- Test for `typeof v === 'object' && v !== null && !Array.isArray(v)`. -/
def isPlainObj : Value → Bool
  | .obj _ => true
  | _ => false

/-- Test for `Array.isArray(v)`. -/
def isArrV : Value → Bool
  | .arr _ => true
  | _ => false

/-- Test for `v === null`. -/
def isNullV : Value → Bool
  | .null => true
  | _ => false

/-- Test for `typeof v !== 'object'` on parsed JSON values: numbers,
strings and booleans; `null` and arrays have `typeof === 'object'`. -/
def typeofNotObject : Value → Bool
  | .num _ => true
  | .str _ => true
  | .bool _ => true
  | _ => false

/-- Decimal digits of the fractional part of a nonnegative rational,
by repeated multiplication by 10 (exact for terminating decimals, which is
the range reachable from JS number printing; bounded by fuel). -/
def fracDigits : ℕ → ℚ → String
  | 0, _ => ""
  | fuel + 1, q =>
    if q = 0 then ""
    else
      let q10 := q * 10
      let d := (⌊q10⌋).toNat
      Nat.repr d ++ fracDigits fuel (q10 - d)

/-- Model of JS `String(number)` for the JSON-reachable range: sign,
integer part, and a terminating decimal fraction. -/
def numToString (q : ℚ) : String :=
  let a := |q|
  let ip := (⌊a⌋).toNat
  let fp := a - ip
  let core := Nat.repr ip ++ (if fp = 0 then "" else "." ++ fracDigits 40 fp)
  if q < 0 then "-" ++ core else core

mutual
/-- Model of JS `String(value)` on parsed JSON values: `null`/booleans print
as literals, numbers print in decimal, arrays join their elements with `,`
(null elements printing as the empty string, per `Array.prototype.join`),
and plain objects print as `[object Object]`. -/
def jsString : Value → String
  | .null => "null"
  | .bool b => if b then "true" else "false"
  | .num q => numToString q
  | .str s => s
  | .arr es => jsJoin es
  | .obj _ => "[object Object]"

/-- `Array.prototype.join(',')` over the stringified elements. -/
def jsJoin : List Value → String
  | [] => ""
  | [v] => (match v with | .null => "" | v => jsString v)
  | v :: rest => (match v with | .null => "" | v => jsString v) ++ "," ++ jsJoin rest
end

/-- Model of JS `Object.values(v)`: own enumerable values of an object,
elements of an array, single characters of a string, empty otherwise. -/
def jsValues : Value → List Value
  | .obj fields => fields.map Prod.snd
  | .arr es => es
  | .str s => s.data.map (fun c => .str (String.singleton c))
  | _ => []

/-- Model of JS `Object.keys(v)`: own enumerable keys of an object, index
strings for arrays and strings, empty otherwise. -/
def jsKeys : Value → List String
  | .obj fields => fields.map Prod.fst
  | .arr es => (List.range es.length).map Nat.repr
  | .str s => (List.range s.length).map Nat.repr
  | _ => []

/-- Property read `row[column]` on a row record; `none` models `undefined`.
Rows are JS objects (string/array index properties are outside the table
data model and yield `undefined` here). -/
def jsLookup (v : Value) (key : String) : Option Value :=
  match v with
  | .obj fields => (fields.find? (fun kv => kv.1 = key)).map Prod.snd
  | _ => none

/-- Model of `String.prototype.toLowerCase` (ASCII-accurate). -/
def jsToLower (s : String) : String := String.mk (s.data.map Char.toLower)

/-- Whitespace characters stripped by `String.prototype.trim`. -/
def jsIsWs (c : Char) : Bool :=
  c = ' ' || c = '\t' || c = '\n' || c = '\r' || c = '\x0b' || c = '\x0c'

/-- Model of `String.prototype.trim`: strip leading and trailing whitespace. -/
def jsTrim (s : String) : String :=
  String.mk (((s.data.dropWhile jsIsWs).reverse.dropWhile jsIsWs).reverse)

/-- Model of `String.prototype.includes`: `needle` occurs as a contiguous
substring of `hay`. -/
def strContainsSub (hay needle : String) : Bool :=
  hay.data.tails.any (fun t => needle.data.isPrefixOf t)

/-- UTF-16 code units of one character (scalar value), as JS strings are
compared unit by unit. -/
def u16 (c : Char) : List ℕ :=
  if c.toNat < 65536 then [c.toNat]
  else [55296 + (c.toNat - 65536) / 1024, 56320 + (c.toNat - 65536) % 1024]

/-- Lexicographic order on unit lists. -/
def unitsLe : List ℕ → List ℕ → Bool
  | [], _ => true
  | _ :: _, [] => false
  | a :: as_, b :: bs => if a < b then true else if b < a then false else unitsLe as_ bs

/-- Characterwise comparison of character lists by UTF-16 code units. -/
def charListLe : List Char → List Char → Bool
  | [], _ => true
  | _ :: _, [] => false
  | c :: cs, d :: ds =>
    if u16 c = u16 d then charListLe cs ds
    else unitsLe (u16 c) (u16 d)

/-- JS default string comparison (`<` on strings, used by `Array.prototype.sort`
with no comparator): comparison by UTF-16 code units.  Because scalar values
never encode to a surrogate code unit, one character's unit list is never a
proper prefix of a different character's, so the characterwise comparison
agrees with comparison of the flattened unit sequences. -/
def jsStrLeB (a b : String) : Bool :=
  charListLe a.data b.data

/-- Set-insertion used to model `Set.prototype.add`: keeps the first
occurrence of each element, in insertion order. -/
def setAdd (acc : List String) (k : String) : List String :=
  if k ∈ acc then acc else acc ++ [k]

/-- Model of collecting strings into a JS `Set` and converting with
`Array.from`: first-occurrence deduplication preserving insertion order. -/
def dedupFirst (l : List String) : List String := l.foldl setAdd []

/-- One step of a stable insertion sort: insert `a` before the first element
`b` with `le a b`. -/
def jsInsert (le : α → α → Bool) (a : α) : List α → List α
  | [] => [a]
  | b :: bs => if le a b then a :: b :: bs else b :: jsInsert le a bs

/-- Stable sort modelling `Array.prototype.sort` with comparator `comp`
(taking `le a b := comp a b ≤ 0`): ECMAScript requires the result to be a
stable, comparator-sorted permutation whenever the comparator is consistent,
which any stable insertion sort realises. -/
def jsStableSort (le : α → α → Bool) : List α → List α
  | [] => []
  | a :: rest => jsInsert le a (jsStableSort le rest)

theorem jsInsert_perm (le : α → α → Bool) (a : α) (l : List α) :
    (jsInsert le a l).Perm (a :: l) := by
  induction l with
  | nil => simp [jsInsert]
  | cons b bs ih =>
    simp only [jsInsert]
    by_cases h : le a b = true
    · simp [h]
    · simp only [h, if_false]
      exact ((ih.cons b).trans (List.Perm.swap a b bs)).symm.symm

theorem jsStableSort_perm (le : α → α → Bool) (l : List α) :
    (jsStableSort le l).Perm l := by
  induction l with
  | nil => simp [jsStableSort]
  | cons a rest ih =>
    exact (jsInsert_perm le a (jsStableSort le rest)).trans (ih.cons a)

theorem mem_jsStableSort (le : α → α → Bool) (l : List α) (x : α) :
    x ∈ jsStableSort le l ↔ x ∈ l :=
  (jsStableSort_perm le l).mem_iff

theorem jsInsert_sorted (le : α → α → Bool) (a : α) (l : List α)
    (hl : l.Pairwise (fun x y => le x y = true))
    (htot : ∀ b ∈ l, le a b = true ∨ le b a = true)
    (htr : ∀ b ∈ l, ∀ c ∈ l, le a b = true → le b c = true → le a c = true) :
    (jsInsert le a l).Pairwise (fun x y => le x y = true) := by
  induction l with
  | nil => simp [jsInsert]
  | cons b bs ih =>
    rw [List.pairwise_cons] at hl
    obtain ⟨hb, hbs⟩ := hl
    simp only [jsInsert]
    by_cases h : le a b = true
    · rw [if_pos h]
      refine List.Pairwise.cons ?_ (List.Pairwise.cons hb hbs)
      intro x hx
      rcases List.mem_cons.mp hx with rfl | hx
      · exact h
      · exact htr b (List.mem_cons_self b bs) x (List.mem_cons_of_mem b hx) h (hb x hx)
    · rw [if_neg h]
      have hba : le b a = true := by
        rcases htot b (List.mem_cons_self b bs) with h1 | h1
        · exact absurd h1 h
        · exact h1
      refine List.Pairwise.cons ?_
        (ih hbs (fun x hx => htot x (List.mem_cons_of_mem b hx))
          (fun x hx y hy => htr x (List.mem_cons_of_mem b hx) y (List.mem_cons_of_mem b hy)))
      intro x hx
      rcases List.mem_cons.mp ((jsInsert_perm le a bs).mem_iff.mp hx) with rfl | hx
      · exact hba
      · exact hb x hx

theorem jsStableSort_sorted (le : α → α → Bool) (l : List α)
    (htot : l.Pairwise (fun x y => le x y = true ∨ le y x = true))
    (htr : ∀ a ∈ l, ∀ b ∈ l, ∀ c ∈ l, le a b = true → le b c = true → le a c = true) :
    (jsStableSort le l).Pairwise (fun x y => le x y = true) := by
  induction l with
  | nil => simp [jsStableSort]
  | cons a rest ih =>
    rw [List.pairwise_cons] at htot
    obtain ⟨hhead, htail⟩ := htot
    simp only [jsStableSort]
    refine jsInsert_sorted le a (jsStableSort le rest)
      (ih htail (fun x hx y hy z hz =>
        htr x (List.mem_cons_of_mem a hx) y (List.mem_cons_of_mem a hy)
          z (List.mem_cons_of_mem a hz))) ?_ ?_
    · intro b hbmem
      exact hhead b ((mem_jsStableSort le rest b).mp hbmem)
    · intro b hbmem c hcmem
      exact htr a (List.mem_cons_self a rest)
        b (List.mem_cons_of_mem a ((mem_jsStableSort le rest b).mp hbmem))
        c (List.mem_cons_of_mem a ((mem_jsStableSort le rest c).mp hcmem))

theorem jsStableSort_of_pairwise (le : α → α → Bool) (l : List α)
    (h : l.Pairwise (fun x y => le x y = true)) : jsStableSort le l = l := by
  induction l with
  | nil => rfl
  | cons a rest ih =>
    rw [List.pairwise_cons] at h
    obtain ⟨ha, hrest⟩ := h
    simp only [jsStableSort, ih hrest]
    cases rest with
    | nil => rfl
    | cons b bs =>
      simp only [jsInsert, ha b (List.mem_cons_self b bs), if_true]

theorem jsInsert_filter_neg (le : α → α → Bool) (p : α → Bool) (a : α) (l : List α)
    (ha : p a = false) : (jsInsert le a l).filter p = l.filter p := by
  induction l with
  | nil => simp [jsInsert, ha]
  | cons b bs ih =>
    simp only [jsInsert]
    by_cases h : le a b = true
    · simp [h, List.filter, ha]
    · simp only [h, if_false, List.filter]
      cases hb : p b <;> simp [hb, ih]

theorem jsInsert_filter_pos (le : α → α → Bool) (p : α → Bool) (a : α) (l : List α)
    (ha : p a = true) (h : ∀ c ∈ l, p c = true → le a c = true) :
    (jsInsert le a l).filter p = a :: l.filter p := by
  induction l with
  | nil => simp [jsInsert, ha]
  | cons b bs ih =>
    simp only [jsInsert]
    by_cases hab : le a b = true
    · simp [hab, List.filter, ha]
    · rw [if_neg hab]
      have hpb : p b = false := by
        cases hpb : p b
        · rfl
        · exact absurd (h b (List.mem_cons_self b bs) hpb) hab
      simp only [List.filter, hpb]
      exact ih (fun c hc => h c (List.mem_cons_of_mem b hc))

theorem jsStableSort_filter (le : α → α → Bool) (p : α → Bool) (l : List α)
    (h : ∀ a ∈ l, ∀ b ∈ l, p a = true → p b = true → le a b = true) :
    (jsStableSort le l).filter p = l.filter p := by
  induction l with
  | nil => rfl
  | cons a rest ih =>
    simp only [jsStableSort]
    have ihr := ih (fun x hx y hy =>
      h x (List.mem_cons_of_mem a hx) y (List.mem_cons_of_mem a hy))
    cases hpa : p a
    · rw [jsInsert_filter_neg le p a _ hpa, ihr, List.filter, hpa]
    · rw [jsInsert_filter_pos le p a _ hpa
        (fun c hc hpc => h a (List.mem_cons_self a rest)
          c (List.mem_cons_of_mem a ((mem_jsStableSort le rest c).mp hc)) hpa hpc),
        ihr, List.filter, hpa]

theorem jsInsert_of_all_false (le : α → α → Bool) (a : α) (l : List α)
    (h : ∀ b ∈ l, le a b = false) : jsInsert le a l = l ++ [a] := by
  induction l with
  | nil => rfl
  | cons b bs ih =>
    have hb : le a b = false := h b (List.mem_cons_self b bs)
    simp only [jsInsert, hb, Bool.false_eq_true, if_false, List.cons_append]
    rw [ih (fun c hc => h c (List.mem_cons_of_mem b hc))]

theorem jsInsert_pairwise_mono (le : α → α → Bool) (q : α → Bool) (a : α) (l : List α)
    (qa : q a = false)
    (h2 : ∀ x y : α, q x = false → q y = true → le x y = true)
    (hl : l.Pairwise (fun x y => q x = true → q y = true)) :
    (jsInsert le a l).Pairwise (fun x y => q x = true → q y = true) := by
  induction l with
  | nil => simp [jsInsert]
  | cons b bs ih =>
    rw [List.pairwise_cons] at hl
    obtain ⟨hb, hbs⟩ := hl
    simp only [jsInsert]
    by_cases hab : le a b = true
    · rw [if_pos hab]
      refine List.Pairwise.cons ?_ (List.Pairwise.cons hb hbs)
      intro x _ hqa
      exact absurd hqa (by simp [qa])
    · rw [if_neg hab]
      have hqb : q b = false := by
        cases hqb : q b
        · rfl
        · exact absurd (h2 a b qa hqb) hab
      refine List.Pairwise.cons ?_ (ih hbs)
      intro x _ hqbtrue
      exact absurd hqbtrue (by simp [hqb])

theorem jsStableSort_mono_suffix (le : α → α → Bool) (q : α → Bool) (l : List α)
    (h1 : ∀ a, q a = true → ∀ b, le a b = false)
    (h2 : ∀ x y : α, q x = false → q y = true → le x y = true) :
    (jsStableSort le l).Pairwise (fun x y => q x = true → q y = true) := by
  induction l with
  | nil => simp [jsStableSort]
  | cons a rest ih =>
    simp only [jsStableSort]
    cases hqa : q a
    · exact jsInsert_pairwise_mono le q a _ hqa h2 ih
    · rw [jsInsert_of_all_false le a _ (fun b _ => h1 a hqa b)]
      rw [List.pairwise_append]
      refine ⟨ih, List.pairwise_singleton _ _, ?_⟩
      intro x _ y hy _
      rw [List.mem_singleton] at hy
      subst hy
      exact hqa

theorem unitsLe_total (a b : List ℕ) : unitsLe a b = true ∨ unitsLe b a = true := by
  induction a generalizing b with
  | nil => left; rfl
  | cons x xs ih =>
    cases b with
    | nil => right; rfl
    | cons y ys =>
      simp only [unitsLe]
      rcases lt_trichotomy x y with h | h | h
      · left; simp [h]
      · subst h; simpa [lt_irrefl] using ih ys
      · right; simp [h, not_lt.mpr h.le, Nat.lt_irrefl]

theorem unitsLe_antisymm {a b : List ℕ} (h1 : unitsLe a b = true)
    (h2 : unitsLe b a = true) : a = b := by
  induction a generalizing b with
  | nil => cases b with
    | nil => rfl
    | cons y ys => simp [unitsLe] at h2
  | cons x xs ih =>
    cases b with
    | nil => simp [unitsLe] at h1
    | cons y ys =>
      simp only [unitsLe] at h1 h2
      rcases lt_trichotomy x y with h | h | h
      · simp [h, not_lt.mpr h.le, Nat.lt_irrefl] at h2
      · subst h
        simp only [lt_irrefl, if_false] at h1 h2
        rw [ih h1 h2]
      · simp [h, not_lt.mpr h.le, Nat.lt_irrefl] at h1

theorem unitsLe_trans {a b c : List ℕ} (h1 : unitsLe a b = true)
    (h2 : unitsLe b c = true) : unitsLe a c = true := by
  induction a generalizing b c with
  | nil => rfl
  | cons x xs ih =>
    cases b with
    | nil => simp [unitsLe] at h1
    | cons y ys =>
      cases c with
      | nil => simp [unitsLe] at h2
      | cons z zs =>
        simp only [unitsLe] at h1 h2 ⊢
        rcases lt_trichotomy x y with hxy | hxy | hxy
        · rcases lt_trichotomy y z with hyz | hyz | hyz
          · simp [hxy.trans hyz]
          · subst hyz; simp [hxy]
          · simp [hyz, not_lt.mpr hyz.le, Nat.lt_irrefl] at h2
        · subst hxy
          simp only [lt_irrefl, if_false] at h1
          rcases lt_trichotomy x z with hyz | hyz | hyz
          · simp [hyz]
          · subst hyz
            simp only [lt_irrefl, if_false] at h2 ⊢
            exact ih h1 h2
          · simp [hyz, not_lt.mpr hyz.le, Nat.lt_irrefl] at h2
        · simp [hxy, not_lt.mpr hxy.le, Nat.lt_irrefl] at h1

theorem char_toNat_inj {c d : Char} (h : c.toNat = d.toNat) : c = d := by
  rw [← Char.ofNat_toNat c, ← Char.ofNat_toNat d, h]

theorem u16_inj {c d : Char} (h : u16 c = u16 d) : c = d := by
  unfold u16 at h
  by_cases hc : c.toNat < 65536 <;> by_cases hd : d.toNat < 65536 <;>
    simp only [hc, hd, if_true, if_false, List.cons.injEq, and_true] at h
  · exact char_toNat_inj h
  · exact absurd h.2 (by simp)
  · exact absurd h.2 (by simp)
  · exact char_toNat_inj (by omega)

theorem charListLe_total (a b : List Char) :
    charListLe a b = true ∨ charListLe b a = true := by
  induction a generalizing b with
  | nil => left; rfl
  | cons c cs ih =>
    cases b with
    | nil => right; rfl
    | cons d ds =>
      simp only [charListLe]
      by_cases h : u16 c = u16 d
      · simp only [h, if_true]
        simpa using ih ds
      · simp only [h, Ne.symm h, if_false]
        exact unitsLe_total _ _

theorem charListLe_antisymm {a b : List Char} (h1 : charListLe a b = true)
    (h2 : charListLe b a = true) : a = b := by
  induction a generalizing b with
  | nil =>
    cases b with
    | nil => rfl
    | cons d ds => simp [charListLe] at h2
  | cons c cs ih =>
    cases b with
    | nil => simp [charListLe] at h1
    | cons d ds =>
      simp only [charListLe] at h1 h2
      by_cases h : u16 c = u16 d
      · simp only [h, if_true] at h1
        simp only [Ne, h, if_pos rfl] at h2
        rw [u16_inj h, ih h1 (by simpa [h] using h2)]
      · simp only [h, Ne.symm h, if_false] at h1 h2
        exact absurd (u16_inj (unitsLe_antisymm h1 h2)) (fun hcd => h (by rw [hcd]))

theorem charListLe_trans {a b c : List Char} (h1 : charListLe a b = true)
    (h2 : charListLe b c = true) : charListLe a c = true := by
  induction a generalizing b c with
  | nil => rfl
  | cons x xs ih =>
    cases b with
    | nil => simp [charListLe] at h1
    | cons y ys =>
      cases c with
      | nil => simp [charListLe] at h2
      | cons z zs =>
        simp only [charListLe] at h1 h2 ⊢
        by_cases hxy : u16 x = u16 y
        · by_cases hyz : u16 y = u16 z
          · simp only [hxy, hyz, if_true] at h1 h2
            have : u16 x = u16 z := hxy.trans hyz
            simp only [this, if_true]
            exact ih h1 h2
          · simp only [hxy, hyz, if_true, if_false] at h1 h2
            have hxz : u16 x ≠ u16 z := fun h => hyz (hxy.symm.trans h)
            simp only [hxz, if_false]
            rwa [hxy]
        · by_cases hyz : u16 y = u16 z
          · simp only [hxy, hyz, if_true, if_false] at h1 h2
            have hxz : u16 x ≠ u16 z := fun h => hxy (h.trans hyz.symm)
            simp only [hxz, if_false] at h1 ⊢
            exact h1
          · simp only [hxy, hyz, if_false] at h1 h2
            by_cases hxz : u16 x = u16 z
            · exfalso
              rw [hxz] at h1
              exact hyz (unitsLe_antisymm h2 h1)
            · simp only [hxz, if_false]
              exact unitsLe_trans h1 h2

theorem jsStrLeB_total (a b : String) : jsStrLeB a b = true ∨ jsStrLeB b a = true :=
  charListLe_total a.data b.data

theorem jsStrLeB_antisymm {a b : String} (h1 : jsStrLeB a b = true)
    (h2 : jsStrLeB b a = true) : a = b :=
  String.ext (charListLe_antisymm h1 h2)

theorem jsStrLeB_trans {a b c : String} (h1 : jsStrLeB a b = true)
    (h2 : jsStrLeB b c = true) : jsStrLeB a c = true :=
  charListLe_trans h1 h2

instance : IsAntisymm String (fun a b => jsStrLeB a b = true) :=
  ⟨fun _ _ => jsStrLeB_antisymm⟩

theorem nodup_foldl_setAdd (l : List String) (acc : List String) (h : acc.Nodup) :
    (l.foldl setAdd acc).Nodup := by
  induction l generalizing acc with
  | nil => exact h
  | cons a l ih =>
    simp only [List.foldl_cons]
    refine ih (setAdd acc a) ?_
    unfold setAdd
    by_cases hmem : a ∈ acc
    · simpa [hmem] using h
    · simp only [hmem, if_false]
      simp [List.nodup_append, h, hmem]

theorem mem_foldl_setAdd (l : List String) (acc : List String) (x : String) :
    x ∈ l.foldl setAdd acc ↔ x ∈ acc ∨ x ∈ l := by
  induction l generalizing acc with
  | nil => simp
  | cons a l ih =>
    simp only [List.foldl_cons, ih (setAdd acc a)]
    unfold setAdd
    by_cases hmem : a ∈ acc
    · simp only [hmem, if_true, List.mem_cons]
      constructor
      · rintro (h | h)
        · exact Or.inl h
        · exact Or.inr (Or.inr h)
      · rintro (h | rfl | h)
        · exact Or.inl h
        · exact Or.inl hmem
        · exact Or.inr h
    · simp only [hmem, if_false, List.mem_append, List.mem_singleton, List.mem_cons]
      tauto

theorem nodup_dedupFirst (l : List String) : (dedupFirst l).Nodup :=
  nodup_foldl_setAdd l [] List.nodup_nil

theorem mem_dedupFirst (l : List String) (x : String) : x ∈ dedupFirst l ↔ x ∈ l := by
  simpa using mem_foldl_setAdd l [] x

/-- Keys one row contributes in `extractHeadersFromObjects`: the row passes
the `typeof row === 'object' && row !== null` guard (objects and arrays;
strings and other primitives are skipped) and its own keys are added. -/
def rowHeaderKeys : Value → List String
  | .obj fields => fields.map Prod.fst
  | .arr es => (List.range es.length).map Nat.repr
  | _ => []

/-- Embedding of `extractHeadersFromObjects`: keys of all (object) rows are
accumulated into a `Set` (first-occurrence order) and sorted with the
default string sort. -/
def extractHeadersFromObjects (data : List Value) : List String :=
  jsStableSort jsStrLeB (dedupFirst (data.flatMap rowHeaderKeys))

theorem pairwise_of_total {R : α → α → Prop} (h : ∀ a b, R a b) :
    ∀ l : List α, l.Pairwise R := by
  intro l
  induction l with
  | nil => exact List.Pairwise.nil
  | cons a t ih => exact List.Pairwise.cons (fun b _ => h a b) ih

theorem rowHeaderKeys_eq_jsKeys {r : Value} (h : isPlainObj r = true) :
    rowHeaderKeys r = jsKeys r := by
  cases r <;> simp [isPlainObj] at h <;> rfl

theorem headers_sorted (data : List Value) :
    (extractHeadersFromObjects data).Pairwise (fun a b => jsStrLeB a b = true) :=
  jsStableSort_sorted jsStrLeB _
    (pairwise_of_total (fun a b => jsStrLeB_total a b) _)
    (fun _ _ _ _ _ _ h1 h2 => jsStrLeB_trans h1 h2)

theorem headers_mem (data : List Value) (k : String) :
    k ∈ extractHeadersFromObjects data ↔ ∃ r ∈ data, k ∈ rowHeaderKeys r := by
  unfold extractHeadersFromObjects
  rw [mem_jsStableSort, mem_dedupFirst, List.mem_flatMap]

/-- C1. For every non-empty array of row objects, the derived header list is
sorted in the JS default string order with no duplicates, its members are
exactly the union of the keys appearing across all rows, it is invariant
under permutation of the rows (hence independent of row insertion order and
of which rows contain which keys), and on `[{"a":1},{"b":2}]` it is
`["a","b"]`. -/
theorem C1_headers_sorted_union (data : List Value) (hne : data ≠ [])
    (hobj : ∀ r ∈ data, isPlainObj r = true) :
    (extractHeadersFromObjects data).Sorted (fun a b => jsStrLeB a b = true)
    ∧ (extractHeadersFromObjects data).Nodup
    ∧ (∀ k, k ∈ extractHeadersFromObjects data ↔ ∃ r ∈ data, k ∈ jsKeys r)
    ∧ (∀ data2, data.Perm data2 →
        extractHeadersFromObjects data2 = extractHeadersFromObjects data)
    ∧ extractHeadersFromObjects [Value.obj [("a", .num 1)], Value.obj [("b", .num 2)]]
        = ["a", "b"] := by
  refine ⟨headers_sorted data, ?_, ?_, ?_, by decide⟩
  · exact ((jsStableSort_perm jsStrLeB _).nodup_iff).mpr (nodup_dedupFirst _)
  · intro k
    rw [headers_mem]
    constructor
    · rintro ⟨r, hr, hk⟩
      exact ⟨r, hr, by rwa [← rowHeaderKeys_eq_jsKeys (hobj r hr)]⟩
    · rintro ⟨r, hr, hk⟩
      exact ⟨r, hr, by rwa [rowHeaderKeys_eq_jsKeys (hobj r hr)]⟩
  · intro data2 hp
    apply List.eq_of_perm_of_sorted (r := fun a b => jsStrLeB a b = true)
    · have e1 := jsStableSort_perm jsStrLeB (dedupFirst (data.flatMap rowHeaderKeys))
      have e2 := jsStableSort_perm jsStrLeB (dedupFirst (data2.flatMap rowHeaderKeys))
      have hd : (dedupFirst (data2.flatMap rowHeaderKeys)).Perm
          (dedupFirst (data.flatMap rowHeaderKeys)) := by
        refine List.perm_of_nodup_nodup_toFinset_eq (nodup_dedupFirst _)
          (nodup_dedupFirst _) ?_
        ext x
        simp only [List.mem_toFinset, mem_dedupFirst, List.mem_flatMap]
        constructor
        · rintro ⟨a, ha, hx⟩
          exact ⟨a, hp.mem_iff.mpr ha, hx⟩
        · rintro ⟨a, ha, hx⟩
          exact ⟨a, hp.mem_iff.mp ha, hx⟩
      exact e2.trans (hd.trans e1.symm)
    · exact headers_sorted data2
    · exact headers_sorted data

theorem C1_headers_sorted_union_witness :
    (([Value.obj [("a", .num 1)], Value.obj [("b", .num 2)]] : List Value) ≠ [])
    ∧ extractHeadersFromObjects [Value.obj [("a", .num 1)], Value.obj [("b", .num 2)]]
        = ["a", "b"] :=
  ⟨by simp, (C1_headers_sorted_union
    [Value.obj [("a", .num 1)], Value.obj [("b", .num 2)]]
    (by simp) (by decide)).2.2.2.2⟩

/-- Predicate of `searchTable`'s row filter: some column value's string form
contains the search term case-insensitively (`Object.values(row).some(v =>
String(v).toLowerCase().includes(searchTerm.toLowerCase()))`). -/
def rowMatches (searchTerm : String) (row : Value) : Bool :=
  (jsValues row).any (fun v => strContainsSub (jsToLower (jsString v)) (jsToLower searchTerm))

/-- Embedding of `searchTable`: an empty (or all-whitespace, via
`searchTerm.trim() === ''`) term shows the original data, otherwise the rows
are filtered by `rowMatches`. -/
def searchTable (searchTerm : String) (originalData : List Value) : List Value :=
  if jsTrim searchTerm = "" then originalData
  else originalData.filter (rowMatches searchTerm)

/-- Statement of C9 as claimed: for every term the search operation keeps
exactly the matching rows. -/
def searchKeepsExactlyMatches (t : String) (data : List Value) : Prop :=
  searchTable t data = data.filter (rowMatches t)

/-- C9 counterexample.  A whitespace-only (but non-empty) term such as `" "`
is treated like the empty term: `searchTable` returns every row, including
rows no column value of which contains `" "`, so the search does not keep
exactly the matching rows. -/
theorem C9_counterexample :
    ¬ searchKeepsExactlyMatches " " [Value.obj [("a", Value.str "x")]] := by
  intro h
  unfold searchKeepsExactlyMatches at h
  have hL : searchTable " " [Value.obj [("a", Value.str "x")]]
      = [Value.obj [("a", Value.str "x")]] := rfl
  have hR : ([Value.obj [("a", Value.str "x")]] : List Value).filter (rowMatches " ")
      = [] := rfl
  rw [hL, hR] at h
  exact List.cons_ne_nil _ _ h

/-- C9 (amended).  The search operation is a pure filter: its result is a
sublist of the rows (a subset in original relative order); a row is kept
iff it is one of the rows and either the term is empty/whitespace-only or
some column value's string form contains the term case-insensitively; the
empty term and any whitespace-only term return all rows unchanged. -/
theorem C9_search_pure_filter (t : String) (data : List Value) :
    (searchTable t data).Sublist data
    ∧ searchTable "" data = data
    ∧ (∀ r, r ∈ searchTable t data ↔ r ∈ data ∧ (jsTrim t = "" ∨ rowMatches t r = true))
    ∧ searchTable " " data = data := by
  refine ⟨?_, rfl, ?_, rfl⟩
  · unfold searchTable
    by_cases h : jsTrim t = ""
    · simp [h]
    · simp only [h, if_false]
      exact List.filter_sublist data
  · intro r
    unfold searchTable
    by_cases h : jsTrim t = ""
    · simp [h]
    · simp [h, List.mem_filter]

/-- Cell read `arr[i] !== undefined ? arr[i] : null` in the array-of-arrays
branch: array elements by index, string characters by index, `null` past the
end (and for index reads on other values, where `arr[i]` is `undefined`). -/
def jsIndexAt (v : Value) (j : ℕ) : Value :=
  match v with
  | .arr l => l.getD j .null
  | .str s =>
    (match s.data.get? j with
     | some c => .str (String.singleton c)
     | none => .null)
  | _ => .null

/-- JS `.length` read (`data.map(arr => arr.length)`): arrays and strings have
a length; on numbers, booleans and plain objects the read gives `undefined`
(`none`); the read throws on `null`, which the caller checks first. -/
def jsLenOf : Value → Option ℕ
  | .arr l => some l.length
  | .str s => some s.data.length
  | _ => none

/-- Rows `{index, value}` built for an array of primitives. -/
def indexValueRows (elems : List Value) : List Value :=
  elems.mapIdx (fun i v => .obj [("index", .num i), ("value", v)])

/-- Embedding of the array-of-arrays branch of `extractTableData`.  Reading
`.length` on a `null` element throws (caught by `parseJSON`).  A `.length`
read of `undefined` on some element makes `Math.max` return `NaN`, so the
column loop `for (let i = 0; i < maxLength; i++)` runs zero times; otherwise
`maxLength` is the maximum of the lengths.  Every row gets `_rowIndex`
followed by `column_0 .. column_{maxLength-1}`, padding with `null`. -/
def extractArrayOfArrays (elems : List Value) : Except String (List Value) :=
  if elems.any isNullV then
    .error "Cannot read properties of null (reading 'length')"
  else
    let lens := elems.map jsLenOf
    let maxLength : ℕ :=
      if lens.all Option.isSome then (lens.map (fun o => o.getD 0)).foldl max 0 else 0
    .ok (elems.mapIdx (fun i e =>
      .obj (("_rowIndex", .num i) ::
        (List.range maxLength).map (fun j => ("column_" ++ Nat.repr j, jsIndexAt e j)))))

/-- `Object.values(data).filter(Array.isArray)`: the array-valued properties
of an object, in enumeration order. -/
def arrayValuesOf (fields : List (String × Value)) : List (List Value) :=
  fields.filterMap (fun kv => match kv.2 with | .arr l => some l | _ => none)

/-- `arrayValues.reduce((longest, current) => current.length > longest.length
? current : longest)`: the first array of maximal length. -/
def longestOf (a : List Value) (rest : List (List Value)) : List Value :=
  rest.foldl (fun longest current => if longest.length < current.length then current else longest) a

/-- Recursive flattening of a nested object (`flattenObjectToTable`'s inner
`flatten`): leaf (non-plain-object) values are emitted under their dotted
path, plain-object values are walked recursively.  The accumulated JS object
is modelled as the association list of assignments in traversal order
(duplicate dotted paths, which require keys containing dots, are not
deduplicated here, while JS assignment would overwrite). -/
def flattenPairs : List (String × Value) → String → List (String × Value)
  | [], _ => []
  | (k, v) :: rest, pre =>
    let newKey := if pre = "" then k else pre ++ "." ++ k
    (match v with
     | .obj fields => flattenPairs fields newKey
     | v => [(newKey, v)]) ++ flattenPairs rest pre

/-- Fall-through object handling of `extractTableData`: flatten when some
property value is a plain object, otherwise one `{key, value}` row per
property. -/
def objFallThrough (fields : List (String × Value)) : Except String (List Value) :=
  if fields.any (fun kv => isPlainObj kv.2) then .ok [.obj (flattenPairs fields "")]
  else .ok (fields.map (fun kv => .obj [("key", .str kv.1), ("value", kv.2)]))

/-- Embedding of `extractTableData`: arrays are classified by their first
element (objects verbatim / array-of-arrays / primitives as `{index, value}`
rows); an object with array-valued properties uses its longest such array as
the row source when that array is non-empty and starts with a plain object
or a non-object, and otherwise falls through to the flatten / key-value
rules; scalars and `null` give a single `{value}` row. -/
def extractTableData : Value → Except String (List Value)
  | .arr [] => .ok []
  | .arr (e :: es) =>
    if isPlainObj e then .ok (e :: es)
    else if isArrV e then extractArrayOfArrays (e :: es)
    else .ok (indexValueRows (e :: es))
  | .obj fields =>
    (match arrayValuesOf fields with
     | a :: rs =>
       (match longestOf a rs with
        | le0 :: lrest =>
          if isPlainObj le0 then .ok (le0 :: lrest)
          else if typeofNotObject le0 then .ok (indexValueRows (le0 :: lrest))
          else objFallThrough fields
        | [] => objFallThrough fields)
     | [] => objFallThrough fields)
  | v => .ok [.obj [("value", v)]]

theorem le_foldl_max (l : List ℕ) (i : ℕ) :
    (∀ x ∈ l, x ≤ l.foldl max i) ∧ i ≤ l.foldl max i := by
  induction l generalizing i with
  | nil => exact ⟨by simp, le_refl i⟩
  | cons a t ih =>
    simp only [List.foldl_cons]
    obtain ⟨h1, h2⟩ := ih (max i a)
    refine ⟨fun x hx => ?_, le_trans (le_max_left i a) h2⟩
    rcases List.mem_cons.mp hx with rfl | hx
    · exact le_trans (le_max_right i x) h2
    · exact h1 x hx

/-- Maximum length over the element arrays (`Math.max(...data.map(arr =>
arr.length))` when every element has a length). -/
def maxArrLen (elems : List Value) : ℕ :=
  ((elems.map jsLenOf).map (fun o => o.getD 0)).foldl max 0

theorem isArrV_not_null {e : Value} (h : isArrV e = true) : isNullV e = false := by
  cases e <;> simp [isArrV, isNullV] at h ⊢

theorem isArrV_lenOf_isSome {e : Value} (h : isArrV e = true) : (jsLenOf e).isSome = true := by
  cases e <;> simp [isArrV] at h ⊢ <;> simp [jsLenOf]

/-- C5.  For every non-empty array of arrays, the extraction succeeds and
produces one row per element: each row is the object with the `_rowIndex`
cell recording the element's original position followed by exactly the cells
`column_0 .. column_{maxLen-1}`, `maxLen` being the maximum length over all
element arrays; an index read beyond a row-array's length pads with `null`
(the absence marker) and an in-range read returns the element unchanged
(no truncation, since every element array's length is at most `maxLen`). -/
theorem C5_ragged_array_of_arrays (elems : List Value) (hne : elems ≠ [])
    (harr : ∀ e ∈ elems, isArrV e = true) :
    extractTableData (.arr elems)
      = .ok (elems.mapIdx (fun i e =>
          .obj (("_rowIndex", Value.num i) ::
            (List.range (maxArrLen elems)).map
              (fun j => ("column_" ++ Nat.repr j, jsIndexAt e j)))))
    ∧ (∀ li : List Value, ∀ j, li.length ≤ j → jsIndexAt (.arr li) j = .null)
    ∧ (∀ li : List Value, ∀ j, ∀ h : j < li.length, jsIndexAt (.arr li) j = li.get ⟨j, h⟩)
    ∧ (∀ e ∈ elems, ∀ li, e = .arr li → li.length ≤ maxArrLen elems) := by
  refine ⟨?_, ?_, ?_, ?_⟩
  · cases elems with
    | nil => exact absurd rfl hne
    | cons e es =>
      have he := harr e (List.mem_cons_self e es)
      have hnull : (e :: es).any isNullV = false := by
        rw [List.any_eq_false]
        intro x hx
        simp [isArrV_not_null (harr x hx)]
      have hall : ((e :: es).map jsLenOf).all Option.isSome = true := by
        rw [List.all_eq_true]
        intro o ho
        obtain ⟨x, hx, rfl⟩ := List.mem_map.mp ho
        exact isArrV_lenOf_isSome (harr x hx)
      obtain ⟨l0, rfl⟩ : ∃ l0, e = Value.arr l0 := by
        cases e <;> simp [isArrV] at he ⊢
      simp only [extractTableData, isPlainObj, isArrV, Bool.false_eq_true, if_false, if_true,
        extractArrayOfArrays, hnull, hall, maxArrLen]
  · intro li j h
    simp [jsIndexAt, List.getD, List.getElem?_eq_none, h]
  · intro li j h
    simp [jsIndexAt, List.getD, List.getElem?_eq_getElem h]
  · intro e he li hli
    subst hli
    have hmem : ((jsLenOf (Value.arr li)).getD 0)
        ∈ (elems.map jsLenOf).map (fun o => o.getD 0) :=
      List.mem_map_of_mem _ (List.mem_map_of_mem jsLenOf he)
    simpa [jsLenOf, maxArrLen, List.map_map]
      using (le_foldl_max ((elems.map jsLenOf).map (fun o => o.getD 0)) 0).1 _ hmem

theorem C5_ragged_array_of_arrays_witness :
    (([Value.arr [.num 1, .num 2], Value.arr [.num 3]] : List Value) ≠ [])
    ∧ extractTableData (.arr [Value.arr [.num 1, .num 2], Value.arr [.num 3]])
        = .ok ([Value.arr [.num 1, .num 2], Value.arr [.num 3]].mapIdx (fun i e =>
            .obj (("_rowIndex", Value.num i) ::
              (List.range (maxArrLen [Value.arr [.num 1, .num 2], Value.arr [.num 3]])).map
                (fun j => ("column_" ++ Nat.repr j, jsIndexAt e j))))) :=
  ⟨by simp, (C5_ragged_array_of_arrays [Value.arr [.num 1, .num 2], Value.arr [.num 3]]
    (by simp) (by decide)).1⟩

/-- Selection performed by the object branch: the `reduce` over the
array-valued properties, when there is at least one. -/
def selectedLongestArray (fields : List (String × Value)) : Option (List Value) :=
  match arrayValuesOf fields with
  | [] => none
  | a :: rs => some (longestOf a rs)

theorem longestOf_spec (rest : List (List Value)) :
    ∀ a : List Value, ∃ pre suf, a :: rest = pre ++ (longestOf a rest) :: suf
      ∧ (∀ x ∈ pre, x.length < (longestOf a rest).length)
      ∧ (∀ x ∈ a :: rest, x.length ≤ (longestOf a rest).length) := by
  induction rest with
  | nil =>
    intro a
    exact ⟨[], [], rfl, by simp, by simp [longestOf]⟩
  | cons b rs ih =>
    intro a
    have hstep : longestOf a (b :: rs)
        = longestOf (if a.length < b.length then b else a) rs := by
      simp [longestOf]
    by_cases hab : a.length < b.length
    · obtain ⟨pre, suf, hdec, hpre, hmax⟩ := ih b
      rw [if_pos hab] at hstep
      refine ⟨a :: pre, suf, ?_, ?_, ?_⟩
      · rw [hstep, List.cons_append, ← hdec]
      · intro x hx
        rw [hstep]
        rcases List.mem_cons.mp hx with rfl | hx
        · exact lt_of_lt_of_le hab (hmax b (List.mem_cons_self b rs))
        · exact hpre x hx
      · intro x hx
        rw [hstep]
        rcases List.mem_cons.mp hx with rfl | hx
        · exact le_of_lt (lt_of_lt_of_le hab (hmax b (List.mem_cons_self b rs)))
        · exact hmax x hx
    · obtain ⟨pre, suf, hdec, hpre, hmax⟩ := ih a
      rw [if_neg hab] at hstep
      have hble : b.length ≤ a.length := le_of_not_lt hab
      have hamax : a.length ≤ (longestOf a rs).length :=
        hmax a (List.mem_cons_self a rs)
      cases pre with
      | nil =>
        simp only [List.nil_append] at hdec
        have ha : longestOf a rs = a := (List.cons.injEq _ _ _ _ ▸ hdec).1.symm
        have hsuf : suf = rs := (List.cons.injEq _ _ _ _ ▸ hdec).2.symm
        refine ⟨[], b :: rs, ?_, by simp, ?_⟩
        · rw [hstep, ha, List.nil_append]
        · intro x hx
          rw [hstep, ha]
          rcases List.mem_cons.mp hx with rfl | hx
          · exact le_refl _
          · rcases List.mem_cons.mp hx with rfl | hx
            · exact hble
            · exact le_trans (hmax x (List.mem_cons_of_mem a hx)) (le_of_eq (by rw [ha]))
      | cons p ps =>
        simp only [List.cons_append] at hdec
        have hap : a = p := (List.cons.injEq _ _ _ _ ▸ hdec).1
        have hrs : rs = ps ++ longestOf a rs :: suf := (List.cons.injEq _ _ _ _ ▸ hdec).2
        have hpa : a.length < (longestOf a rs).length := by
          have hp2 := hpre p (List.mem_cons_self p ps)
          rwa [← hap] at hp2
        refine ⟨a :: b :: ps, suf, ?_, ?_, ?_⟩
        · rw [hstep, List.cons_append, List.cons_append, ← hrs]
        · intro x hx
          rw [hstep]
          rcases List.mem_cons.mp hx with rfl | hx
          · exact hpa
          · rcases List.mem_cons.mp hx with rfl | hx
            · exact lt_of_le_of_lt hble hpa
            · exact hpre x (List.mem_cons_of_mem p hx)
        · intro x hx
          rw [hstep]
          rcases List.mem_cons.mp hx with rfl | hx
          · exact le_of_lt hpa
          · rcases List.mem_cons.mp hx with rfl | hx
            · exact le_of_lt (lt_of_le_of_lt hble hpa)
            · exact hmax x (List.mem_cons_of_mem a hx)

/-- Statement of C2 as claimed: whenever at least one property value is an
array, the object's table data equals rule (1) applied to the selected
longest array. -/
def objectUsesLongestAsRowSource (fields : List (String × Value)) : Prop :=
  ∀ la, selectedLongestArray fields = some la →
    extractTableData (.obj fields) = extractTableData (.arr la)

/-- C2 counterexample.  For `{"a": []}` the selected longest array is the
empty array; rule (1) on an empty array yields zero rows, but the code's
`longestArray.length > 0` guard makes the object fall through to the
key/value rules, producing one `{key, value}` row. -/
theorem C2_counterexample :
    ¬ objectUsesLongestAsRowSource [("a", Value.arr [])] := by
  intro h
  have h1 := h [] rfl
  have h2 : (Except.ok [Value.obj [("key", Value.str "a"), ("value", Value.arr [])]]
      : Except String (List Value)) = Except.ok [] := h1
  have h3 : ([Value.obj [("key", Value.str "a"), ("value", Value.arr [])]] : List Value)
      = [] := Except.ok.inj h2
  exact List.cons_ne_nil _ _ h3

theorem typeofNotObject_not_plain {e : Value} (h : typeofNotObject e = true) :
    isPlainObj e = false ∧ isArrV e = false := by
  cases e <;> simp [typeofNotObject] at h ⊢ <;> simp [isPlainObj, isArrV]

theorem extractTableData_obj (fields : List (String × Value)) :
    extractTableData (.obj fields)
      = (match arrayValuesOf fields with
         | a :: rs =>
           (match longestOf a rs with
            | le0 :: lrest =>
              if isPlainObj le0 then Except.ok (le0 :: lrest)
              else if typeofNotObject le0 then Except.ok (indexValueRows (le0 :: lrest))
              else objFallThrough fields
            | [] => objFallThrough fields)
         | [] => objFallThrough fields) := rfl

theorem extractTableData_arr_cons (e : Value) (es : List Value) :
    extractTableData (.arr (e :: es))
      = (if isPlainObj e then Except.ok (e :: es)
         else if isArrV e then extractArrayOfArrays (e :: es)
         else Except.ok (indexValueRows (e :: es))) := rfl

/-- C2 (amended).  For every object with at least one array-valued property,
the selection takes the longest array-valued property, ties broken by first
occurrence in enumeration order (the selected array is a property value, no
strictly longer array-valued property exists, and every earlier array-valued
property is strictly shorter).  Whenever the selected array is non-empty
and its first element is a plain object or a non-object (`typeof !==
'object'`), the object's rows are exactly rule (1) applied to that array,
so sibling properties contribute no rows; in particular
`{"users":[{"id":1}],"settings":{"x":1}}` yields exactly the single row of
`users`.  (When the selected array is empty, or starts with an array or with
`null`, the code instead falls through to the flatten / key-value object
rules, as the counterexample shows.) -/
theorem C2_object_longest_array_rows (fields : List (String × Value))
    (e : Value) (lrest : List Value)
    (hsel : selectedLongestArray fields = some (e :: lrest))
    (hshape : isPlainObj e = true ∨ typeofNotObject e = true) :
    extractTableData (.obj fields) = extractTableData (.arr (e :: lrest))
    ∧ (∃ k, (k, Value.arr (e :: lrest)) ∈ fields)
    ∧ (∀ l2 ∈ arrayValuesOf fields, l2.length ≤ (e :: lrest).length)
    ∧ (∃ pre suf, arrayValuesOf fields = pre ++ (e :: lrest) :: suf
        ∧ ∀ l2 ∈ pre, l2.length < (e :: lrest).length)
    ∧ extractTableData (.obj [("users", Value.arr [Value.obj [("id", Value.num 1)]]),
        ("settings", Value.obj [("x", Value.num 1)])])
        = .ok [Value.obj [("id", Value.num 1)]] := by
  unfold selectedLongestArray at hsel
  rcases harv : arrayValuesOf fields with _ | ⟨a, rs⟩
  · rw [harv] at hsel
    exact absurd hsel (by simp)
  · rw [harv] at hsel
    have hla : longestOf a rs = e :: lrest := by
      simpa using hsel
    obtain ⟨pre, suf, hdec, hpre, hmax⟩ := longestOf_spec rs a
    rw [hla] at hdec hpre hmax
    refine ⟨?_, ?_, ?_, ⟨pre, suf, hdec, hpre⟩, rfl⟩
    · rw [extractTableData_obj, harv, extractTableData_arr_cons]
      dsimp only
      rw [hla]
      dsimp only
      rcases hshape with hp | ht
      · rw [if_pos hp, if_pos hp]
      · obtain ⟨hp2, ha2⟩ := typeofNotObject_not_plain ht
        rw [if_neg (by simp [hp2]), if_pos ht, if_neg (by simp [hp2]),
          if_neg (by simp [ha2])]
    · have hmem : (e :: lrest) ∈ arrayValuesOf fields := by
        rw [harv, hdec]
        exact List.mem_append_right _ (List.mem_cons_self _ _)
      obtain ⟨kv, hkv, hf⟩ := List.mem_filterMap.mp hmem
      obtain ⟨k, v⟩ := kv
      refine ⟨k, ?_⟩
      cases v <;> simp at hf
      · rwa [hf] at hkv
    · intro l2 h2
      exact hmax l2 h2

theorem C2_object_longest_array_rows_witness :
    selectedLongestArray [("users", Value.arr [Value.obj [("id", Value.num 1)]]),
        ("settings", Value.obj [("x", Value.num 1)])]
      = some [Value.obj [("id", Value.num 1)]]
    ∧ extractTableData (.obj [("users", Value.arr [Value.obj [("id", Value.num 1)]]),
        ("settings", Value.obj [("x", Value.num 1)])])
      = extractTableData (.arr [Value.obj [("id", Value.num 1)]]) :=
  ⟨rfl, (C2_object_longest_array_rows
    [("users", Value.arr [Value.obj [("id", Value.num 1)]]),
     ("settings", Value.obj [("x", Value.num 1)])]
    (Value.obj [("id", Value.num 1)]) [] rfl (Or.inl rfl)).1⟩

/-- Value held in `result.data`: the raw parsed value (left there when table
extraction throws after `result.data = parsedData`) or the extracted rows. -/
inductive JsData where
  | raw (v : Value)
  | table (rows : List Value)

/-- Result record of `parseJSON`. -/
structure ParseResult where
  success : Bool
  data : Option JsData
  error : Option String
  rowCount : ℕ
  columnCount : ℕ

/-- Embedding of `formatErrorMessage`: pattern-match the parser's message
into one of five fixed Korean messages, or a generic message carrying the
raw text. -/
def formatErrorMessage (message : String) : String :=
  if strContainsSub message "Unexpected token" then
    "JSON 형식이 올바르지 않습니다. 문법 오류를 확인해주세요."
  else if strContainsSub message "Unexpected end of JSON input" then
    "JSON 데이터가 완전하지 않습니다. 닫는 괄호나 따옴표를 확인해주세요."
  else if strContainsSub message "Unexpected string" then
    "문자열 형식이 올바르지 않습니다. 따옴표를 확인해주세요."
  else if strContainsSub message "Unexpected number" then
    "숫자 형식이 올바르지 않습니다."
  else if strContainsSub message "Unexpected identifier" then
    "예약어나 잘못된 식별자가 사용되었습니다."
  else "JSON 파싱 오류: " ++ message

/-- Continuation of `parseJSON` after a successful `JSON.parse`: `success`
and `data` are set, then table extraction fills `rowCount` and `columnCount`
(`tableData.length > 0 ? Object.keys(tableData[0]).length : 0`); if the
extraction throws, the `catch` records the formatted message, leaving
`success = true`, `data` the raw parsed value and both counts `0`. -/
def parseResultOfValue (v : Value) : ParseResult :=
  match extractTableData v with
  | .ok rows =>
    { success := true, data := some (.table rows), error := none,
      rowCount := rows.length,
      columnCount := match rows with | [] => 0 | r :: _ => (jsKeys r).length }
  | .error m =>
    { success := true, data := some (.raw v), error := some (formatErrorMessage m),
      rowCount := 0, columnCount := 0 }

/-- Key count of the first row only (zero when there are no rows). -/
def firstRowKeyCount (rows : List Value) : ℕ :=
  match rows with
  | [] => 0
  | r :: _ => (jsKeys r).length

/-- C10.  Whenever table extraction succeeds, the result's `columnCount` is
the number of keys of the first row only (zero when there are no rows), so
keys appearing only in later rows never contribute; for the ragged input
`[{"a":1},{"a":1,"b":2}]` the `columnCount` is `1` while the rendered
header list (the sorted union of keys) has `2` entries. -/
theorem C10_columnCount_first_row (v : Value) (rows : List Value)
    (h : extractTableData v = .ok rows) :
    (parseResultOfValue v).columnCount = firstRowKeyCount rows
    ∧ (parseResultOfValue (.arr [Value.obj [("a", Value.num 1)],
        Value.obj [("a", Value.num 1), ("b", Value.num 2)]])).columnCount = 1
    ∧ (extractHeadersFromObjects [Value.obj [("a", Value.num 1)],
        Value.obj [("a", Value.num 1), ("b", Value.num 2)]]).length = 2 := by
  refine ⟨?_, rfl, by decide⟩
  simp only [parseResultOfValue, h]
  rfl

theorem C10_columnCount_first_row_witness :
    extractTableData (.arr [Value.obj [("a", Value.num 1)],
        Value.obj [("a", Value.num 1), ("b", Value.num 2)]])
      = .ok [Value.obj [("a", Value.num 1)],
        Value.obj [("a", Value.num 1), ("b", Value.num 2)]]
    ∧ (parseResultOfValue (.arr [Value.obj [("a", Value.num 1)],
        Value.obj [("a", Value.num 1), ("b", Value.num 2)]])).columnCount
        = firstRowKeyCount [Value.obj [("a", Value.num 1)],
            Value.obj [("a", Value.num 1), ("b", Value.num 2)]] :=
  ⟨rfl, (C10_columnCount_first_row
    (.arr [Value.obj [("a", Value.num 1)], Value.obj [("a", Value.num 1), ("b", Value.num 2)]])
    [Value.obj [("a", Value.num 1)], Value.obj [("a", Value.num 1), ("b", Value.num 2)]]
    rfl).1⟩

/-- One scaled width: `Math.max(minColumnWidth, Math.floor(width * ratio))`
with `ratio = availableWidth / totalWidth` and `minColumnWidth = 100`. -/
def scaledWidth (availableWidth totalWidth w : ℤ) : ℤ :=
  max 100 ⌊(w : ℚ) * (availableWidth : ℚ) / (totalWidth : ℚ)⌋

/-- Embedding of the proportional-scaling step of `adjustColumnWidths`:
`availableWidth = containerWidth - 60` (scrollbar/padding allowance); if the
ideal widths fit they are kept, otherwise every width is scaled by the same
ratio and floored, clamped below by `minColumnWidth = 100`. -/
def adjustColumnWidths (columnWidths : List ℤ) (containerWidth : ℤ) : List ℤ :=
  let totalWidth := columnWidths.sum
  let availableWidth := containerWidth - 60
  if totalWidth ≤ availableWidth then columnWidths
  else columnWidths.map (scaledWidth availableWidth totalWidth)

/-- Statement of C3 as claimed: the produced widths sum to at most the
available width, or else every produced width equals `minColumnWidth`. -/
def widthPlanInvariant (columnWidths : List ℤ) (containerWidth : ℤ) : Prop :=
  (adjustColumnWidths columnWidths containerWidth).sum ≤ containerWidth - 60
  ∨ ∀ w ∈ adjustColumnWidths columnWidths containerWidth, w = 100

/-- C3 counterexample.  The clamp `Math.max(minColumnWidth, ...)` is applied
per column, so one column can sit at the 100px floor while another is merely
scaled: for ideal widths `[100, 300]` and container width `310`
(`availableWidth = 250`), scaling gives `[100, 187]`, whose sum `287`
exceeds `250` while the second width is not `100`. -/
theorem C3_counterexample : ¬ widthPlanInvariant [100, 300] 310 := by
  have h1 : adjustColumnWidths [100, 300] 310 = [100, 187] := by
    unfold adjustColumnWidths scaledWidth
    rw [if_neg (by norm_num)]
    norm_num
  unfold widthPlanInvariant
  rw [h1]
  decide

/-- C3 (amended).  For every non-empty list of ideal column widths (each at
least the 100px minimum produced by `calculateOptimalColumnWidth`) and every
container width, the produced width plan sums to at most the available width
(container width minus the fixed 60px allowance), or else *some* column's
width equals `minColumnWidth` (the scaling floor was reached for at least
one column, not necessarily all). -/
theorem C3_width_plan_invariant (columnWidths : List ℤ) (containerWidth : ℤ)
    (hne : columnWidths ≠ [])
    (hmin : ∀ w ∈ columnWidths, 100 ≤ w) :
    (adjustColumnWidths columnWidths containerWidth).sum ≤ containerWidth - 60
    ∨ ∃ w ∈ adjustColumnWidths columnWidths containerWidth, w = 100 := by
  by_cases hfit : columnWidths.sum ≤ containerWidth - 60
  · left
    unfold adjustColumnWidths
    rw [if_pos hfit]
    exact hfit
  · by_cases hex : ∃ w ∈ adjustColumnWidths columnWidths containerWidth, w = 100
    · exact Or.inr hex
    · left
      push_neg at hex
      unfold adjustColumnWidths at hex ⊢
      rw [if_neg hfit] at hex ⊢
      have hT : (0 : ℤ) < columnWidths.sum := by
        cases columnWidths with
        | nil => exact absurd rfl hne
        | cons w ws =>
          have h0 : (0 : ℤ) ≤ ws.sum :=
            List.sum_nonneg (fun a ha =>
              le_trans (by norm_num) (hmin a (List.mem_cons_of_mem w ha)))
          have hw := hmin w (List.mem_cons_self w ws)
          rw [List.sum_cons]
          omega
      have hTQ : ((columnWidths.sum : ℤ) : ℚ) ≠ 0 := by
        exact_mod_cast ne_of_gt hT
      -- since no scaled width is exactly 100, the clamp is inactive everywhere
      have hmap : columnWidths.map (scaledWidth (containerWidth - 60) columnWidths.sum)
          = columnWidths.map
            (fun (w : ℤ) => ⌊(w : ℚ) * ((containerWidth - 60 : ℤ) : ℚ)
              / ((columnWidths.sum : ℤ) : ℚ)⌋) := by
        refine List.map_congr_left (fun w hw => ?_)
        have hne100 := hex _ (List.mem_map_of_mem _ hw)
        rcases le_or_lt (⌊(w : ℚ) * ((containerWidth - 60 : ℤ) : ℚ)
            / ((columnWidths.sum : ℤ) : ℚ)⌋) 100 with h | h
        · exact absurd (by unfold scaledWidth; exact max_eq_left h) hne100
        · unfold scaledWidth
          exact max_eq_right (le_of_lt h)
      rw [hmap]
      have key : (((columnWidths.map
            (fun (w : ℤ) => ⌊(w : ℚ) * ((containerWidth - 60 : ℤ) : ℚ)
              / ((columnWidths.sum : ℤ) : ℚ)⌋)).sum : ℤ) : ℚ)
          ≤ ((containerWidth - 60 : ℤ) : ℚ) := by
        rw [Int.cast_list_sum, List.map_map]
        calc (columnWidths.map (Int.cast ∘ fun (w : ℤ) => ⌊(w : ℚ) * ((containerWidth - 60 : ℤ) : ℚ)
                / ((columnWidths.sum : ℤ) : ℚ)⌋)).sum
            ≤ (columnWidths.map (fun (w : ℤ) => (w : ℚ) * (((containerWidth - 60 : ℤ) : ℚ)
                / ((columnWidths.sum : ℤ) : ℚ)))).sum := by
              refine List.sum_le_sum (fun w _ => ?_)
              simp only [Function.comp_apply]
              refine le_trans (Int.floor_le _) (le_of_eq (by ring))
          _ = (columnWidths.map (fun (w : ℤ) => (w : ℚ))).sum * (((containerWidth - 60 : ℤ) : ℚ)
                / ((columnWidths.sum : ℤ) : ℚ)) := List.sum_map_mul_right _ _ _
          _ = ((columnWidths.sum : ℤ) : ℚ) * (((containerWidth - 60 : ℤ) : ℚ)
                / ((columnWidths.sum : ℤ) : ℚ)) := by rw [← Int.cast_list_sum]
          _ = ((containerWidth - 60 : ℤ) : ℚ) := by
              rw [mul_comm]
              exact div_mul_cancel₀ _ hTQ
      exact_mod_cast key

theorem C3_width_plan_invariant_witness :
    (([100, 300] : List ℤ) ≠ [] ∧ ∀ w ∈ ([100, 300] : List ℤ), 100 ≤ w)
    ∧ ((adjustColumnWidths [100, 300] 310).sum ≤ 310 - 60
      ∨ ∃ w ∈ adjustColumnWidths [100, 300] 310, w = 100) :=
  ⟨⟨by decide, by decide⟩, C3_width_plan_invariant [100, 300] 310 (by decide) (by decide)⟩

/-- `n.toString().padStart(2, '0')` for the HH:MM:SS pieces. -/
def pad2 (n : ℕ) : String :=
  if n < 10 then "0" ++ Nat.repr n else Nat.repr n

/-- JS `%` on nonnegative operands: `a - n * Math.trunc(a / n)`. -/
def jsModQ (a n : ℚ) : ℚ := a - n * ⌊a / n⌋

/-- The `HH:MM:SS` rendering of an intra-day offset in seconds:
`hours = Math.floor(value / 3600)`, `minutes = Math.floor((value % 3600) /
60)`, `seconds = Math.floor(value % 60)`, each zero-padded to two digits. -/
def hmsString (q : ℚ) : String :=
  pad2 (⌊q / 3600⌋).toNat ++ ":" ++ pad2 (⌊jsModQ q 3600 / 60⌋).toNat
    ++ ":" ++ pad2 (⌊jsModQ q 60⌋).toNat

/-- Observable outcome of `formatAsTime`: an `HH:MM:SS` string, a date-time
rendered from an epoch-millisecond value (the locale rendering itself is
environment state and is abstracted to the millisecond value it displays),
or the literal string of the value. -/
inductive TimeRender where
  | hms (s : String) : TimeRender
  | date (epochMs : ℚ) : TimeRender
  | literal (s : String) : TimeRender
  deriving DecidableEq, Repr

/-- Embedding of `formatAsTime` on a numeric value: nonnegative values are
checked against `(1e9, 1e10)` (seconds, strict bounds), `(1e12, 1e13)`
(milliseconds, strict bounds) and `(0, 86400)` (intra-day `HH:MM:SS`);
anything else nonnegative is a raw millisecond timestamp, which renders as a
date when `new Date(value)` is valid (`value ≤ 8.64e15`) and otherwise falls
back to the literal string; negative values skip the `value >= 0` block and
return the literal string. -/
def formatAsTimeNum (value : ℚ) : TimeRender :=
  if 0 ≤ value then
    if 1000000000 < value ∧ value < 10000000000 then .date (value * 1000)
    else if 1000000000000 < value ∧ value < 10000000000000 then .date value
    else if 0 < value ∧ value < 86400 then .hms (hmsString value)
    else if value ≤ 8640000000000000 then .date value
    else .literal (numToString value)
  else .literal (numToString value)

/-- Embedding of `formatAsTime`: non-numbers return `String(value)`. -/
def formatAsTime : Value → TimeRender
  | .num q => formatAsTimeNum q
  | v => .literal (jsString v)

/-- Branching of C6 as claimed: `[1e9, 1e10)` (closed left end) are seconds,
`[1e12, 1e13)` milliseconds, `(0, 86400)` an intra-day offset, any other
value a raw millisecond timestamp with invalid dates falling back to the
literal numeric string. -/
def claimedTimeSpec (value : ℚ) : TimeRender :=
  if 1000000000 ≤ value ∧ value < 10000000000 then .date (value * 1000)
  else if 1000000000000 ≤ value ∧ value < 10000000000000 then .date value
  else if 0 < value ∧ value < 86400 then .hms (hmsString value)
  else if |value| ≤ 8640000000000000 then .date value
  else .literal (numToString value)

/-- C6 counterexample.  The code's range checks are strict (`value >
1000000000`), so the boundary value `1e9` is not interpreted as Unix
seconds as the claim's interval `[1e9, 1e10)` requires: the code treats it
as a raw millisecond timestamp (epoch `1e9` ms), while the claim would
display epoch `1e12` ms. -/
theorem C6_counterexample :
    formatAsTime (.num 1000000000) ≠ claimedTimeSpec 1000000000 := by
  have h1 : formatAsTime (.num 1000000000) = .date 1000000000 := by
    unfold formatAsTime formatAsTimeNum
    norm_num
  have h2 : claimedTimeSpec 1000000000 = .date 1000000000000 := by
    unfold claimedTimeSpec
    norm_num
  rw [h1, h2]
  intro h
  injection h with h3
  norm_num at h3

/-- C6 (amended).  For numeric cell values under `number-time` the formatter
branches on magnitude with strict bounds: values strictly between `1e9` and
`1e10` are Unix seconds (displayed epoch `value * 1000` ms), values strictly
between `1e12` and `1e13` are milliseconds, values strictly between 0 and
86400 render as the intra-day offset `HH:MM:SS`, any other nonnegative
value is a raw millisecond timestamp when it yields a valid date
(`value ≤ 8.64e15`) and the literal numeric string otherwise, and negative
values return the literal numeric string (not a raw timestamp); non-numeric
values return their string form. -/
theorem C6_number_time_branches (q : ℚ) :
    (1000000000 < q → q < 10000000000 → formatAsTimeNum q = .date (q * 1000))
    ∧ (1000000000000 < q → q < 10000000000000 → formatAsTimeNum q = .date q)
    ∧ (0 < q → q < 86400 → formatAsTimeNum q = .hms (hmsString q))
    ∧ (0 ≤ q → ¬(1000000000 < q ∧ q < 10000000000)
        → ¬(1000000000000 < q ∧ q < 10000000000000)
        → ¬(0 < q ∧ q < 86400) → q ≤ 8640000000000000
        → formatAsTimeNum q = .date q)
    ∧ (0 ≤ q → 8640000000000000 < q → formatAsTimeNum q = .literal (numToString q))
    ∧ (q < 0 → formatAsTimeNum q = .literal (numToString q))
    ∧ (∀ v : Value, (∀ p : ℚ, v ≠ .num p) → formatAsTime v = .literal (jsString v)) := by
  refine ⟨?_, ?_, ?_, ?_, ?_, ?_, ?_⟩
  · intro h1 h2
    unfold formatAsTimeNum
    rw [if_pos (by linarith), if_pos ⟨h1, h2⟩]
  · intro h1 h2
    unfold formatAsTimeNum
    rw [if_pos (by linarith), if_neg (by rintro ⟨_, hc⟩; linarith),
      if_pos ⟨h1, h2⟩]
  · intro h1 h2
    unfold formatAsTimeNum
    rw [if_pos (by linarith), if_neg (by rintro ⟨hc, _⟩; linarith),
      if_neg (by rintro ⟨hc, _⟩; linarith), if_pos ⟨h1, h2⟩]
  · intro h0 hn1 hn2 hn3 hle
    unfold formatAsTimeNum
    rw [if_pos h0, if_neg hn1, if_neg hn2, if_neg hn3, if_pos hle]
  · intro h0 hgt
    unfold formatAsTimeNum
    rw [if_pos h0, if_neg (by rintro ⟨_, hc⟩; linarith),
      if_neg (by rintro ⟨_, hc⟩; linarith), if_neg (by rintro ⟨_, hc⟩; linarith),
      if_neg (by linarith)]
  · intro hneg
    unfold formatAsTimeNum
    rw [if_neg (by linarith)]
  · intro v hv
    cases v with
    | num p => exact absurd rfl (hv p)
    | null => rfl
    | bool b => rfl
    | str s => rfl
    | arr es => rfl
    | obj fs => rfl

theorem C6_number_time_branches_witness :
    ((0 : ℚ) < 3661 ∧ (3661 : ℚ) < 86400)
    ∧ formatAsTimeNum 3661 = .hms "01:01:01" := by
  refine ⟨⟨by norm_num, by norm_num⟩, ?_⟩
  rw [(C6_number_time_branches 3661).2.2.1 (by norm_num) (by norm_num)]
  have hh : (⌊(3661 : ℚ) / 3600⌋).toNat = 1 := by norm_num
  have hm : (⌊jsModQ 3661 3600 / 60⌋).toNat = 1 := by
    have : jsModQ (3661 : ℚ) 3600 = 61 := by
      unfold jsModQ
      norm_num
    rw [this]
    norm_num
  have hs : (⌊jsModQ (3661 : ℚ) 60⌋).toNat = 1 := by
    have : jsModQ (3661 : ℚ) 60 = 1 := by
      unfold jsModQ
      norm_num
    rw [this]
    norm_num
  unfold hmsString
  rw [hh, hm, hs]
  rfl

/-- Lowercase base-16 digits of a natural number (`Number.prototype.toString(16)`). -/
def natToHexLower (n : ℕ) : String := (Nat.toDigits 16 n).asString

/-- Hexadecimal digits of the fractional part, by repeated multiplication by
16 (exact for the dyadic fractions JS numbers hold; bounded by fuel, as the
JS output is bounded by round-trip precision). -/
def hexFracDigits : ℕ → ℚ → String
  | 0, _ => ""
  | fuel + 1, q =>
    if q = 0 then ""
    else
      let q16 := q * 16
      let d := (⌊q16⌋).toNat
      (Nat.toDigits 16 d).asString ++ hexFracDigits fuel (q16 - d)

/-- Model of `Number.prototype.toString(16)`: sign, integer part in lowercase
hex, and hexadecimal fraction digits for non-integers. -/
def numToHexLower (q : ℚ) : String :=
  let a := |q|
  let ip := (⌊a⌋).toNat
  let fp := a - ip
  let core := natToHexLower ip ++ (if fp = 0 then "" else "." ++ hexFracDigits 40 fp)
  if q < 0 then "-" ++ core else core

/-- `String.prototype.toUpperCase` (ASCII-accurate). -/
def toUpperStr (s : String) : String := String.mk (s.data.map Char.toUpper)

/-- Embedding of `formatAsHex`: every number (integral or not) is rendered
as `'0x' + value.toString(16).toUpperCase()`; other values return
`String(value)`. -/
def formatAsHex : Value → String
  | .num q => "0x" ++ toUpperStr (numToHexLower q)
  | v => jsString v

/-- Model of `Number.prototype.toString(2)` on an integer. -/
def numToBinInt (n : ℤ) : String :=
  (if n < 0 then "-" else "") ++ (Nat.toDigits 2 n.natAbs).asString

/-- Embedding of `formatAsBinary`: only integers (`Number.isInteger`) are
rendered as `'0b' + value.toString(2)`; every other value (non-integer
numbers included) returns `String(value)`. -/
def formatAsBinary : Value → String
  | .num q => if q.den = 1 then "0b" ++ numToBinInt q.num else jsString (.num q)
  | v => jsString v

/-- Rendering of C8 as claimed for `number-hex`: integer-only conversion,
with every other value passing through as its string form. -/
def claimedHexSpec : Value → String
  | .num q => if q.den = 1 then "0x" ++ toUpperStr (numToHexLower q) else jsString (.num q)
  | v => jsString v

/-- C8 counterexample.  `formatAsHex` has no `Number.isInteger` guard, so the
conversion is not integer-only: the non-integer `1.5` is converted to
`0x1.8` (with fractional hex digits) instead of passing through as `1.5`. -/
theorem C8_counterexample :
    formatAsHex (.num (3 / 2)) ≠ claimedHexSpec (.num (3 / 2)) := by
  with_unfolding_all decide

/-- C8 (amended).  `number-binary` is integer-only: integers render as
`0b`-prefixed binary and non-integer numbers pass through as their string
form; `number-hex` however converts every numeric value, non-integers
included, to a `0x`-prefixed (uppercased) hexadecimal representation; for
both types non-numeric values pass through unchanged as their string form. -/
theorem C8_hex_binary_conversion (q : ℚ) (v : Value) :
    (q.den = 1 → formatAsBinary (.num q) = "0b" ++ numToBinInt q.num)
    ∧ (q.den ≠ 1 → formatAsBinary (.num q) = jsString (.num q))
    ∧ formatAsHex (.num q) = "0x" ++ toUpperStr (numToHexLower q)
    ∧ ((∀ p : ℚ, v ≠ .num p) →
        formatAsHex v = jsString v ∧ formatAsBinary v = jsString v) := by
  refine ⟨?_, ?_, rfl, ?_⟩
  · intro h
    simp only [formatAsBinary]
    rw [if_pos h]
  · intro h
    simp only [formatAsBinary]
    rw [if_neg h]
  · intro hv
    cases v with
    | num p => exact absurd rfl (hv p)
    | null => exact ⟨rfl, rfl⟩
    | bool b => exact ⟨rfl, rfl⟩
    | str s => exact ⟨rfl, rfl⟩
    | arr es => exact ⟨rfl, rfl⟩
    | obj fs => exact ⟨rfl, rfl⟩

theorem C8_hex_binary_conversion_witness :
    ((5 : ℚ).den = 1 ∧ formatAsBinary (.num 5) = "0b" ++ numToBinInt (5 : ℚ).num)
    ∧ ((3 / 2 : ℚ).den ≠ 1 ∧ formatAsBinary (.num (3 / 2)) = jsString (.num (3 / 2))) :=
  ⟨⟨by decide, (C8_hex_binary_conversion 5 (.str "x")).1 (by decide)⟩,
   ⟨by with_unfolding_all decide,
    (C8_hex_binary_conversion (3 / 2) (.str "x")).2.1 (by with_unfolding_all decide)⟩⟩

/-- Model of `String.prototype.localeCompare` as a signed rational: the
collation is environment state; it is modelled as the code-point order (the
`C` locale), which is a total order as the comparator contract requires. -/
def strCmpQ (a b : String) : ℚ :=
  if a = b then 0 else if a < b then -1 else 1

/-- Embedding of the comparator of `sortTable`: null/undefined in the sort
column sorts last (`return 1` / `return -1`); two numbers compare by
(direction-adjusted) difference; every other pair compares by
(direction-adjusted) locale comparison of the lowercased string forms. -/
def sortComp (column direction : String) (a b : Value) : ℚ :=
  match jsLookup a column with
  | none => 1
  | some .null => 1
  | some av =>
    match jsLookup b column with
    | none => -1
    | some .null => -1
    | some bv =>
      match av, bv with
      | .num x, .num y => if direction = "asc" then x - y else y - x
      | av, bv =>
        if direction = "asc" then
          strCmpQ (jsToLower (jsString av)) (jsToLower (jsString bv))
        else
          strCmpQ (jsToLower (jsString bv)) (jsToLower (jsString av))

/-- Keep-before relation induced by the comparator, as used by the stable
sort: `a` stays before `b` iff the comparator does not order `b` first. -/
def sortLe (column direction : String) (a b : Value) : Bool :=
  decide (sortComp column direction a b ≤ 0)

/-- Embedding of `sortTable`'s reordering `[...data].sort(comparator)`. -/
def sortTable (column direction : String) (data : List Value) : List Value :=
  jsStableSort (sortLe column direction) data

/-- The row's sort-column value is null or absent. -/
def colIsNull (column : String) (r : Value) : Bool :=
  match jsLookup r column with
  | none => true
  | some .null => true
  | _ => false

/-- The row's sort-column value is a number. -/
def colIsNum (column : String) (r : Value) : Bool :=
  match jsLookup r column with
  | some (.num _) => true
  | _ => false

/-- Numeric sort key of a row, when its column value is a number. -/
def keyNum (column : String) (r : Value) : Option ℚ :=
  match jsLookup r column with
  | some (.num x) => some x
  | _ => none

/-- String sort key of a row: the lowercased string form of its column value. -/
def keyStr (column : String) (r : Value) : String :=
  jsToLower (jsString ((jsLookup r column).getD .null))

/-- Comparator on extracted keys (specification-level restatement of the
non-null part of `sortComp`). -/
def sortCompKey (direction : String) (na nb : Option ℚ) (sa sb : String) : ℚ :=
  match na, nb with
  | some x, some y => if direction = "asc" then x - y else y - x
  | _, _ => if direction = "asc" then strCmpQ sa sb else strCmpQ sb sa

theorem strCmpQ_eq_zero_iff (a b : String) : strCmpQ a b = 0 ↔ a = b := by
  unfold strCmpQ
  by_cases h : a = b
  · simp [h]
  · by_cases h2 : a < b <;> simp [h, h2] <;> norm_num

theorem strCmpQ_le_zero_iff (a b : String) : strCmpQ a b ≤ 0 ↔ a ≤ b := by
  unfold strCmpQ
  by_cases h : a = b
  · subst h
    simp
  · by_cases h2 : a < b
    · rw [if_neg h, if_pos h2]
      exact ⟨fun _ => le_of_lt h2, fun _ => by norm_num⟩
    · rw [if_neg h, if_neg h2]
      constructor
      · intro hc
        norm_num at hc
      · intro hc
        exact absurd (lt_of_le_of_ne hc h) h2

theorem sortComp_null_left {column direction : String} {a : Value} (b : Value)
    (ha : colIsNull column a = true) : sortComp column direction a b = 1 := by
  unfold colIsNull at ha
  unfold sortComp
  rcases hA : jsLookup a column with _ | va
  · rfl
  · rw [hA] at ha
    cases va <;> simp at ha <;> rfl

theorem sortComp_null_right {column direction : String} {a b : Value}
    (ha : colIsNull column a = false) (hb : colIsNull column b = true) :
    sortComp column direction a b = -1 := by
  unfold colIsNull at ha hb
  unfold sortComp
  rcases hA : jsLookup a column with _ | va
  · rw [hA] at ha
    simp at ha
  · rw [hA] at ha
    rcases hB : jsLookup b column with _ | vb
    · cases va <;> simp at ha <;> rfl
    · rw [hB] at hb
      cases vb <;> simp at hb
      cases va <;> simp at ha <;> rfl

theorem sortComp_nonnull {column direction : String} {a b : Value}
    (ha : colIsNull column a = false) (hb : colIsNull column b = false) :
    sortComp column direction a b
      = sortCompKey direction (keyNum column a) (keyNum column b)
          (keyStr column a) (keyStr column b) := by
  unfold colIsNull at ha hb
  unfold sortComp sortCompKey keyNum keyStr
  rcases hA : jsLookup a column with _ | va
  · rw [hA] at ha
    simp at ha
  · rw [hA] at ha
    rcases hB : jsLookup b column with _ | vb
    · rw [hB] at hb
      simp at hb
    · rw [hB] at hb
      cases va <;> simp at ha <;> cases vb <;> simp at hb <;> rfl

theorem sortLe_false_of_null_left {column direction : String} {a : Value} (b : Value)
    (ha : colIsNull column a = true) : sortLe column direction a b = false := by
  unfold sortLe
  rw [sortComp_null_left b ha]
  norm_num

theorem sortLe_true_of_null_right {column direction : String} {a b : Value}
    (ha : colIsNull column a = false) (hb : colIsNull column b = true) :
    sortLe column direction a b = true := by
  unfold sortLe
  rw [sortComp_null_right ha hb]
  norm_num

theorem sortLe_refl_nonnull {column direction : String} {a : Value}
    (ha : colIsNull column a = false) : sortLe column direction a a = true := by
  unfold sortLe
  rw [sortComp_nonnull ha ha]
  unfold sortCompKey
  rcases keyNum column a with _ | x
  · rw [decide_eq_true_iff]
    by_cases hd : direction = "asc" <;>
      simp [hd, strCmpQ_le_zero_iff]
  · rw [decide_eq_true_iff]
    by_cases hd : direction = "asc" <;> simp [hd]

theorem sortLe_total_not_both_null {column direction : String} {a b : Value}
    (h : ¬(colIsNull column a = true ∧ colIsNull column b = true)) :
    sortLe column direction a b = true ∨ sortLe column direction b a = true := by
  by_cases hA : colIsNull column a = true
  · have hB : colIsNull column b = false := by
      cases hb : colIsNull column b
      · rfl
      · exact absurd ⟨hA, hb⟩ h
    exact Or.inr (sortLe_true_of_null_right hB hA)
  · have hA2 : colIsNull column a = false := by
      cases ha : colIsNull column a
      · rfl
      · exact absurd ha hA
    by_cases hB : colIsNull column b = true
    · exact Or.inl (sortLe_true_of_null_right hA2 hB)
    · have hB2 : colIsNull column b = false := by
        cases hb : colIsNull column b
        · rfl
        · exact absurd hb hB
      unfold sortLe
      rw [sortComp_nonnull hA2 hB2, sortComp_nonnull hB2 hA2]
      unfold sortCompKey
      have hstr : ∀ s t : String, (strCmpQ s t ≤ 0) ∨ (strCmpQ t s ≤ 0) := by
        intro s t
        rw [strCmpQ_le_zero_iff, strCmpQ_le_zero_iff]
        exact le_total s t
      have hnum : ∀ x y : ℚ, (x - y ≤ 0) ∨ (y - x ≤ 0) := by
        intro x y
        rcases le_total x y with hxy | hxy
        · left; linarith
        · right; linarith
      rcases keyNum column a with _ | x <;> rcases keyNum column b with _ | y <;>
        by_cases hd : direction = "asc" <;>
          simp only [hd, if_true, if_false, decide_eq_true_iff] <;>
            first
              | exact hstr _ _
              | exact hnum _ _
              | exact (hnum _ _).symm

theorem filter_le_one_unique {α} (q : α → Bool) (l : List α)
    (h : (l.filter q).length ≤ 1) {a b : α} (ha : a ∈ l) (hb : b ∈ l)
    (qa : q a = true) (qb : q b = true) : a = b := by
  have hfa : a ∈ l.filter q := List.mem_filter.mpr ⟨ha, qa⟩
  have hfb : b ∈ l.filter q := List.mem_filter.mpr ⟨hb, qb⟩
  rcases hf : l.filter q with _ | ⟨x, t⟩
  · rw [hf] at hfa
    exact absurd hfa (List.not_mem_nil a)
  · cases t with
    | nil =>
      rw [hf] at hfa hfb
      rw [List.mem_singleton] at hfa hfb
      rw [hfa, hfb]
    | cons y t2 =>
      rw [hf] at h
      simp at h

theorem pairwise_not_both_of_filter_le_one {α} (q : α → Bool) (l : List α)
    (h : (l.filter q).length ≤ 1) :
    l.Pairwise (fun a b => ¬(q a = true ∧ q b = true)) := by
  induction l with
  | nil => exact List.Pairwise.nil
  | cons a t ih =>
    cases hqa : q a
    · refine List.Pairwise.cons (fun b _ => ?_)
        (ih (by simpa [List.filter_cons, hqa] using h))
      rintro ⟨h1, _⟩
      rw [hqa] at h1
      exact absurd h1 (by simp)
    · have hlen : (t.filter q).length = 0 := by
        rw [List.filter_cons, hqa] at h
        simp only [if_true, List.length_cons] at h
        omega
      refine List.Pairwise.cons (fun b hb => ?_) (ih (by omega))
      rintro ⟨_, h2⟩
      have : b ∈ t.filter q := List.mem_filter.mpr ⟨hb, h2⟩
      rw [List.length_eq_zero.mp hlen] at this
      exact absurd this (List.not_mem_nil b)

theorem bool_eq_false {b : Bool} (h : ¬(b = true)) : b = false := by
  cases b
  · rfl
  · exact absurd rfl h

theorem colIsNum_keyNum {column : String} {r : Value} :
    colIsNum column r = true ↔ ∃ x, keyNum column r = some x := by
  unfold colIsNum keyNum
  rcases jsLookup r column with _ | v
  · simp
  · cases v <;> simp

theorem keyNum_none_iff {column : String} {r : Value} :
    colIsNum column r = false ↔ keyNum column r = none := by
  unfold colIsNum keyNum
  rcases jsLookup r column with _ | v
  · simp
  · cases v <;> simp

theorem sortCompKey_num (direction : String) (x y : ℚ) (sa sb : String) :
    sortCompKey direction (some x) (some y) sa sb
      = if direction = "asc" then x - y else y - x := rfl

theorem sortCompKey_str {direction : String} {na nb : Option ℚ} {sa sb : String}
    (h : na = none ∨ nb = none) :
    sortCompKey direction na nb sa sb
      = if direction = "asc" then strCmpQ sa sb else strCmpQ sb sa := by
  rcases na with _ | x
  · cases nb <;> rfl
  · rcases nb with _ | y
    · rfl
    · rcases h with h | h <;> simp at h

theorem strCmpQ_self (s : String) : strCmpQ s s = 0 := by
  unfold strCmpQ
  rw [if_pos rfl]

/-- Transitivity of the keep-before relation on the rows of a list in which
nulls and (in the mixed case) numbers are sufficiently rare for the
comparator to be consistent. -/
theorem sortLe_trans_on (column direction : String) (data : List Value)
    (htype : (∀ r ∈ data, colIsNull column r = false → colIsNum column r = true)
      ∨ (data.filter (colIsNum column)).length ≤ 1) :
    ∀ a ∈ data, ∀ b ∈ data, ∀ c ∈ data,
      sortLe column direction a b = true → sortLe column direction b c = true →
        sortLe column direction a c = true := by
  intro a ha b hb c hc hab hbc
  by_cases hA : colIsNull column a = true
  · rw [sortLe_false_of_null_left b hA] at hab
    exact absurd hab (by simp)
  have hA2 := bool_eq_false hA
  by_cases hC : colIsNull column c = true
  · exact sortLe_true_of_null_right hA2 hC
  have hC2 := bool_eq_false hC
  by_cases hB : colIsNull column b = true
  · rw [sortLe_false_of_null_left c hB] at hbc
    exact absurd hbc (by simp)
  have hB2 := bool_eq_false hB
  rcases htype with hall | hone
  · obtain ⟨x, hx⟩ := colIsNum_keyNum.mp (hall a ha hA2)
    obtain ⟨y, hy⟩ := colIsNum_keyNum.mp (hall b hb hB2)
    obtain ⟨z, hz⟩ := colIsNum_keyNum.mp (hall c hc hC2)
    unfold sortLe at hab hbc ⊢
    rw [decide_eq_true_iff] at hab hbc ⊢
    rw [sortComp_nonnull hA2 hB2, hx, hy, sortCompKey_num] at hab
    rw [sortComp_nonnull hB2 hC2, hy, hz, sortCompKey_num] at hbc
    rw [sortComp_nonnull hA2 hC2, hx, hz, sortCompKey_num]
    by_cases hd : direction = "asc"
    · rw [if_pos hd] at hab hbc ⊢
      linarith
    · rw [if_neg hd] at hab hbc ⊢
      linarith
  · by_cases qa : colIsNum column a = true
    · by_cases qb : colIsNum column b = true
      · rw [filter_le_one_unique _ _ hone ha hb qa qb]
        exact hbc
      · by_cases qc : colIsNum column c = true
        · rw [filter_le_one_unique _ _ hone ha hc qa qc]
          exact sortLe_refl_nonnull hC2
        · -- pairs (a,b), (b,c), (a,c) all compare as strings
          have sab : keyNum column a = none ∨ keyNum column b = none :=
            Or.inr (keyNum_none_iff.mp (bool_eq_false qb))
          have sbc : keyNum column b = none ∨ keyNum column c = none :=
            Or.inl (keyNum_none_iff.mp (bool_eq_false qb))
          have sac : keyNum column a = none ∨ keyNum column c = none :=
            Or.inr (keyNum_none_iff.mp (bool_eq_false qc))
          unfold sortLe at hab hbc ⊢
          rw [decide_eq_true_iff] at hab hbc ⊢
          rw [sortComp_nonnull hA2 hB2, sortCompKey_str sab] at hab
          rw [sortComp_nonnull hB2 hC2, sortCompKey_str sbc] at hbc
          rw [sortComp_nonnull hA2 hC2, sortCompKey_str sac]
          by_cases hd : direction = "asc"
          · rw [if_pos hd] at hab hbc ⊢
            rw [strCmpQ_le_zero_iff] at hab hbc ⊢
            exact le_trans hab hbc
          · rw [if_neg hd] at hab hbc ⊢
            rw [strCmpQ_le_zero_iff] at hab hbc ⊢
            exact le_trans hbc hab
    · have qa2 : keyNum column a = none := keyNum_none_iff.mp (bool_eq_false qa)
      by_cases qb : colIsNum column b = true
      · by_cases qc : colIsNum column c = true
        · rw [filter_le_one_unique _ _ hone hb hc qb qc] at hab
          exact hab
        · have sab : keyNum column a = none ∨ keyNum column b = none := Or.inl qa2
          have sbc : keyNum column b = none ∨ keyNum column c = none :=
            Or.inr (keyNum_none_iff.mp (bool_eq_false qc))
          have sac : keyNum column a = none ∨ keyNum column c = none := Or.inl qa2
          unfold sortLe at hab hbc ⊢
          rw [decide_eq_true_iff] at hab hbc ⊢
          rw [sortComp_nonnull hA2 hB2, sortCompKey_str sab] at hab
          rw [sortComp_nonnull hB2 hC2, sortCompKey_str sbc] at hbc
          rw [sortComp_nonnull hA2 hC2, sortCompKey_str sac]
          by_cases hd : direction = "asc"
          · rw [if_pos hd] at hab hbc ⊢
            rw [strCmpQ_le_zero_iff] at hab hbc ⊢
            exact le_trans hab hbc
          · rw [if_neg hd] at hab hbc ⊢
            rw [strCmpQ_le_zero_iff] at hab hbc ⊢
            exact le_trans hbc hab
      · have sab : keyNum column a = none ∨ keyNum column b = none := Or.inl qa2
        have sbc : keyNum column b = none ∨ keyNum column c = none :=
          Or.inl (keyNum_none_iff.mp (bool_eq_false qb))
        have sac : keyNum column a = none ∨ keyNum column c = none := Or.inl qa2
        unfold sortLe at hab hbc ⊢
        rw [decide_eq_true_iff] at hab hbc ⊢
        rw [sortComp_nonnull hA2 hB2, sortCompKey_str sab] at hab
        rw [sortComp_nonnull hB2 hC2, sortCompKey_str sbc] at hbc
        rw [sortComp_nonnull hA2 hC2, sortCompKey_str sac]
        by_cases hd : direction = "asc"
        · rw [if_pos hd] at hab hbc ⊢
          rw [strCmpQ_le_zero_iff] at hab hbc ⊢
          exact le_trans hab hbc
        · rw [if_neg hd] at hab hbc ⊢
          rw [strCmpQ_le_zero_iff] at hab hbc ⊢
          exact le_trans hbc hab

theorem sortComp_zero_nonnull {column direction : String} {a b : Value}
    (h : sortComp column direction a b = 0) :
    colIsNull column a = false ∧ colIsNull column b = false := by
  by_cases hA : colIsNull column a = true
  · rw [sortComp_null_left b hA] at h
    norm_num at h
  have hA2 := bool_eq_false hA
  by_cases hB : colIsNull column b = true
  · rw [sortComp_null_right hA2 hB] at h
    norm_num at h
  exact ⟨hA2, bool_eq_false hB⟩

theorem sortComp_zero_keyStr {column direction : String} {a b : Value}
    (ha : colIsNull column a = false) (hb : colIsNull column b = false)
    (hmix : keyNum column a = none ∨ keyNum column b = none)
    (h : sortComp column direction a b = 0) : keyStr column a = keyStr column b := by
  rw [sortComp_nonnull ha hb, sortCompKey_str hmix] at h
  by_cases hd : direction = "asc"
  · rw [if_pos hd] at h
    exact (strCmpQ_eq_zero_iff _ _).mp h
  · rw [if_neg hd] at h
    exact ((strCmpQ_eq_zero_iff _ _).mp h).symm

theorem sortComp_zero_keyNum {column direction : String} {a b : Value} {x y : ℚ}
    (ha : colIsNull column a = false) (hb : colIsNull column b = false)
    (hx : keyNum column a = some x) (hy : keyNum column b = some y)
    (h : sortComp column direction a b = 0) : x = y := by
  rw [sortComp_nonnull ha hb, hx, hy, sortCompKey_num] at h
  by_cases hd : direction = "asc"
  · rw [if_pos hd] at h
    linarith [sub_eq_zero.mp h]
  · rw [if_neg hd] at h
    linarith [sub_eq_zero.mp h]

theorem colIsNum_nonnull {column : String} {r : Value} (h : colIsNum column r = true) :
    colIsNull column r = false := by
  unfold colIsNum at h
  unfold colIsNull
  rcases hL : jsLookup r column with _ | v
  · rw [hL] at h
    exact absurd h (by decide)
  · rw [hL] at h
    cases v <;> first | (exact absurd h (by decide)) | rfl

/-- Rows whose comparator distance to a common pivot row is zero keep each
other before: the premise of the stability (filter-preservation) lemma. -/
theorem sortLe_of_zero_class (column direction : String) (data : List Value)
    (htype : (∀ r ∈ data, colIsNull column r = false → colIsNum column r = true)
      ∨ (data.filter (colIsNum column)).length ≤ 1)
    (r0 : Value) (hr0 : r0 ∈ data) :
    ∀ a ∈ data, ∀ b ∈ data,
      sortComp column direction a r0 = 0 → sortComp column direction b r0 = 0 →
        sortLe column direction a b = true := by
  intro a ha b hb ha0 hb0
  obtain ⟨hA2, hR2⟩ := sortComp_zero_nonnull ha0
  obtain ⟨hB2, _⟩ := sortComp_zero_nonnull hb0
  unfold sortLe
  rw [decide_eq_true_iff]
  rcases htype with hall | hone
  · obtain ⟨x, hx⟩ := colIsNum_keyNum.mp (hall a ha hA2)
    obtain ⟨y, hy⟩ := colIsNum_keyNum.mp (hall b hb hB2)
    obtain ⟨z, hz⟩ := colIsNum_keyNum.mp (hall r0 hr0 hR2)
    have hxz : x = z := sortComp_zero_keyNum hA2 hR2 hx hz ha0
    have hyz : y = z := sortComp_zero_keyNum hB2 hR2 hy hz hb0
    rw [sortComp_nonnull hA2 hB2, hx, hy, sortCompKey_num, hxz, hyz]
    by_cases hd : direction = "asc"
    · rw [if_pos hd]
      linarith
    · rw [if_neg hd]
      linarith
  · by_cases qa : colIsNum column a = true
    · by_cases qb : colIsNum column b = true
      · rw [filter_le_one_unique _ _ hone ha hb qa qb]
        have := @sortLe_refl_nonnull column direction b hB2
        unfold sortLe at this
        rwa [decide_eq_true_iff] at this
      · -- keyStr a = keyStr r0 and keyStr b = keyStr r0
        have hsa : keyStr column a = keyStr column r0 := by
          by_cases q0 : colIsNum column r0 = true
          · rw [filter_le_one_unique _ _ hone ha hr0 qa q0]
          · exact sortComp_zero_keyStr hA2 hR2
              (Or.inr (keyNum_none_iff.mp (bool_eq_false q0))) ha0
        have hsb : keyStr column b = keyStr column r0 :=
          sortComp_zero_keyStr hB2 hR2
            (Or.inl (keyNum_none_iff.mp (bool_eq_false qb))) hb0
        rw [sortComp_nonnull hA2 hB2,
          sortCompKey_str (Or.inr (keyNum_none_iff.mp (bool_eq_false qb))),
          hsa, ← hsb]
        by_cases hd : direction = "asc"
        · rw [if_pos hd, strCmpQ_self]
        · rw [if_neg hd, strCmpQ_self]
    · have hsa : keyStr column a = keyStr column r0 :=
        sortComp_zero_keyStr hA2 hR2
          (Or.inl (keyNum_none_iff.mp (bool_eq_false qa))) ha0
      have hsb : keyStr column b = keyStr column r0 := by
        by_cases qb : colIsNum column b = true
        · by_cases q0 : colIsNum column r0 = true
          · rw [filter_le_one_unique _ _ hone hb hr0 qb q0]
          · exact sortComp_zero_keyStr hB2 hR2
              (Or.inr (keyNum_none_iff.mp (bool_eq_false q0))) hb0
        · exact sortComp_zero_keyStr hB2 hR2
            (Or.inl (keyNum_none_iff.mp (bool_eq_false qb))) hb0
      rw [sortComp_nonnull hA2 hB2,
        sortCompKey_str (Or.inl (keyNum_none_iff.mp (bool_eq_false qa))),
        hsa, ← hsb]
      by_cases hd : direction = "asc"
      · rw [if_pos hd, strCmpQ_self]
      · rw [if_neg hd, strCmpQ_self]

/-- C4 counterexample.  The comparator returns `1` whenever the first row's
value is null — even when both are null — so it is inconsistent on lists
with two null rows and ECMAScript leaves the sort order implementation-
defined; under the stable-sort model the two null rows swap on every pass,
so sorting twice does not equal sorting once. -/
theorem C4_counterexample :
    sortTable "a" "asc" (sortTable "a" "asc"
        [Value.obj [("a", Value.null), ("id", Value.num 1)],
         Value.obj [("a", Value.null), ("id", Value.num 2)]])
      ≠ sortTable "a" "asc"
        [Value.obj [("a", Value.null), ("id", Value.num 1)],
         Value.obj [("a", Value.null), ("id", Value.num 2)]] := by
  have h1 : sortTable "a" "asc"
      [Value.obj [("a", Value.null), ("id", Value.num 1)],
       Value.obj [("a", Value.null), ("id", Value.num 2)]]
      = [Value.obj [("a", Value.null), ("id", Value.num 2)],
         Value.obj [("a", Value.null), ("id", Value.num 1)]] := by
    with_unfolding_all rfl
  have h2 : sortTable "a" "asc"
      [Value.obj [("a", Value.null), ("id", Value.num 2)],
       Value.obj [("a", Value.null), ("id", Value.num 1)]]
      = [Value.obj [("a", Value.null), ("id", Value.num 1)],
         Value.obj [("a", Value.null), ("id", Value.num 2)]] := by
    with_unfolding_all rfl
  rw [h1, h2]
  intro h
  injection h with ha _
  injection ha with hfields
  injection hfields with _ hrest
  injection hrest with hkv _
  injection hkv with _ hv
  injection hv with hq
  norm_num at hq

/-- C4 (amended).  Provided the comparator is consistent on the given rows —
at most one row's value in the sort column is null or absent, and the
non-null values are either all numbers or contain at most one number (mixed
number/string columns make the pairwise rules intransitive) — the sort is a
permutation of the rows, idempotent, sorted by the comparator (pairs of
numbers numerically, everything else by the locale-modelled case-insensitive
string comparison, in the chosen direction), and stable (every class of rows
comparing equal to a common pivot row keeps its original relative order).
Rows with null/absent values are placed last for both directions, with no
hypotheses needed. -/
theorem C4_sort_stable_idempotent (column direction : String) (data : List Value)
    (hnull : (data.filter (colIsNull column)).length ≤ 1)
    (htype : (∀ r ∈ data, colIsNull column r = false → colIsNum column r = true)
      ∨ (data.filter (colIsNum column)).length ≤ 1) :
    (sortTable column direction data).Perm data
    ∧ sortTable column direction (sortTable column direction data)
        = sortTable column direction data
    ∧ (sortTable column direction data).Pairwise
        (fun a b => colIsNull column a = true → colIsNull column b = true)
    ∧ (sortTable column direction data).Pairwise
        (fun a b => sortComp column direction a b ≤ 0)
    ∧ (∀ r0 ∈ data,
        (sortTable column direction data).filter
            (fun r => decide (sortComp column direction r r0 = 0))
          = data.filter (fun r => decide (sortComp column direction r r0 = 0))) := by
  have htot : data.Pairwise (fun a b =>
      sortLe column direction a b = true ∨ sortLe column direction b a = true) :=
    (pairwise_not_both_of_filter_le_one _ _ hnull).imp
      (fun h => sortLe_total_not_both_null h)
  have hsorted : (jsStableSort (sortLe column direction) data).Pairwise
      (fun a b => sortLe column direction a b = true) :=
    jsStableSort_sorted _ data htot (sortLe_trans_on column direction data htype)
  refine ⟨jsStableSort_perm _ _, ?_, ?_, ?_, ?_⟩
  · exact jsStableSort_of_pairwise _ _ hsorted
  · exact jsStableSort_mono_suffix _ (colIsNull column) data
      (fun a haa b => sortLe_false_of_null_left b haa)
      (fun x y hx hy => sortLe_true_of_null_right hx hy)
  · refine hsorted.imp (fun h => ?_)
    unfold sortLe at h
    exact of_decide_eq_true h
  · intro r0 hr0
    refine jsStableSort_filter _ _ data (fun a ha b hb pa pb => ?_)
    exact sortLe_of_zero_class column direction data htype r0 hr0 a ha b hb
      (of_decide_eq_true pa) (of_decide_eq_true pb)

theorem C4_sort_stable_idempotent_witness :
    (([Value.obj [("a", Value.num 2)], Value.obj [("a", Value.num 1)],
        Value.obj [("a", Value.null)]] : List Value).filter (colIsNull "a")).length ≤ 1
    ∧ sortTable "a" "asc" (sortTable "a" "asc"
        [Value.obj [("a", Value.num 2)], Value.obj [("a", Value.num 1)],
         Value.obj [("a", Value.null)]])
      = sortTable "a" "asc"
        [Value.obj [("a", Value.num 2)], Value.obj [("a", Value.num 1)],
         Value.obj [("a", Value.null)]] :=
  ⟨by decide, (C4_sort_stable_idempotent "a" "asc"
    [Value.obj [("a", Value.num 2)], Value.obj [("a", Value.num 1)],
     Value.obj [("a", Value.null)]]
    (by decide) (Or.inl (by decide))).2.1⟩

/-- JSON insignificant whitespace (ECMA-404). -/
def jsonWsChar (c : Char) : Bool :=
  c = ' ' || c = '\t' || c = '\n' || c = '\r'

/-- Skip insignificant whitespace. -/
def skipJsonWs (cs : List Char) : List Char := cs.dropWhile jsonWsChar

/-- Hexadecimal digit test for `\uXXXX` escapes. -/
def isHexDigitChar (c : Char) : Bool :=
  c.isDigit || (97 ≤ c.toNat && c.toNat ≤ 102) || (65 ≤ c.toNat && c.toNat ≤ 70)

/-- Body of a JSON string literal after the opening quote: content up to the
closing quote, with escape sequences decoded (`\uXXXX` code units in the
surrogate range, which Lean characters cannot hold, decode to U+FFFD). -/
def parseStringBody : ℕ → List Char → Except String (List Char × List Char)
  | 0, _ => .error "Unexpected end of JSON input"
  | _, [] => .error "Unexpected end of JSON input"
  | fuel + 1, c :: rest =>
    if c = '"' then .ok ([], rest)
    else if c = '\\' then
      match rest with
      | [] => .error "Unexpected end of JSON input"
      | e :: rest2 =>
        if e = '"' ∨ e = '\\' ∨ e = '/' then
          (parseStringBody fuel rest2).map (fun p => (e :: p.1, p.2))
        else if e = 'b' then
          (parseStringBody fuel rest2).map (fun p => ('\x08' :: p.1, p.2))
        else if e = 'f' then
          (parseStringBody fuel rest2).map (fun p => ('\x0c' :: p.1, p.2))
        else if e = 'n' then
          (parseStringBody fuel rest2).map (fun p => ('\n' :: p.1, p.2))
        else if e = 'r' then
          (parseStringBody fuel rest2).map (fun p => ('\r' :: p.1, p.2))
        else if e = 't' then
          (parseStringBody fuel rest2).map (fun p => ('\t' :: p.1, p.2))
        else if e = 'u' then
          match rest2 with
          | h1 :: h2 :: h3 :: h4 :: rest3 =>
            if (isHexDigitChar h1 && isHexDigitChar h2
                && isHexDigitChar h3 && isHexDigitChar h4) then
              let hv : Char → ℕ := fun h =>
                if h.isDigit then h.toNat - 48
                else if h.toNat ≥ 97 then h.toNat - 87 else h.toNat - 55
              let code := ((hv h1 * 16 + hv h2) * 16 + hv h3) * 16 + hv h4
              let ch := if 55296 ≤ code ∧ code < 57344 then Char.ofNat 65533
                        else Char.ofNat code
              (parseStringBody fuel rest3).map (fun p => (ch :: p.1, p.2))
            else .error "Bad Unicode escape in JSON"
          | _ => .error "Unexpected end of JSON input"
        else .error "Bad escaped character in JSON"
    else if c.toNat < 32 then .error "Bad control character in JSON string literal"
    else (parseStringBody fuel rest).map (fun p => (c :: p.1, p.2))

/-- Value of a list of decimal digits. -/
def digitsVal (ds : List Char) : ℕ :=
  ds.foldl (fun n c => n * 10 + (c.toNat - 48)) 0

/-- JSON number literal at the head of the input, as an exact rational
(`JSON.parse` rounds to a double; the exact value is this model's number
semantics throughout). -/
def parseNumberTok (cs : List Char) : Except String (ℚ × List Char) :=
  let neg := cs.head? = some '-'
  let cs1 := if neg then cs.tail else cs
  let ip := cs1.takeWhile Char.isDigit
  let rest1 := cs1.dropWhile Char.isDigit
  if ip = [] then .error "Unexpected number in JSON"
  else if ip.head? = some '0' ∧ ip.length > 1 then .error "Unexpected number in JSON"
  else
    let withFrac : Except String (ℚ × List Char) :=
      match rest1 with
      | '.' :: t =>
        let fd := t.takeWhile Char.isDigit
        if fd = [] then .error "Unexpected number in JSON"
        else .ok ((digitsVal ip : ℚ) + (digitsVal fd : ℚ) / ((10 : ℚ) ^ fd.length),
          t.dropWhile Char.isDigit)
      | _ => .ok ((digitsVal ip : ℚ), rest1)
    match withFrac with
    | .error e => .error e
    | .ok (mant, rest2) =>
      let withExp : Except String (ℚ × List Char) :=
        match rest2 with
        | e :: t =>
          if e = 'e' ∨ e = 'E' then
            let eneg := t.head? = some '-'
            let t1 := if t.head? = some '-' ∨ t.head? = some '+' then t.tail else t
            let ed := t1.takeWhile Char.isDigit
            if ed = [] then .error "Unexpected number in JSON"
            else
              let ev : ℤ := if eneg then -(digitsVal ed : ℤ) else (digitsVal ed : ℤ)
              .ok (mant * (10 : ℚ) ^ ev, t1.dropWhile Char.isDigit)
          else .ok (mant, rest2)
        | [] => .ok (mant, rest2)
      match withExp with
      | .error e => .error e
      | .ok (v, rest3) => .ok (if neg then -v else v, rest3)

mutual
/-- JSON value at the head of the input (fuel-indexed recursive descent
following the `JSON.parse` grammar; the caller supplies fuel exceeding the
input length so exhaustion is unreachable). -/
def parseValueF : ℕ → List Char → Except String (Value × List Char)
  | 0, _ => .error "Unexpected end of JSON input"
  | fuel + 1, cs =>
    match skipJsonWs cs with
    | [] => .error "Unexpected end of JSON input"
    | c :: rest =>
      if c = '{' then parseObjectF fuel rest
      else if c = '[' then parseArrayF fuel rest
      else if c = '"' then
        (parseStringBody (rest.length + 1) rest).map (fun p => (.str (String.mk p.1), p.2))
      else if c = 't' then
        if rest.take 3 = ['r', 'u', 'e'] then .ok (.bool true, rest.drop 3)
        else .error "Unexpected token t in JSON"
      else if c = 'f' then
        if rest.take 4 = ['a', 'l', 's', 'e'] then .ok (.bool false, rest.drop 4)
        else .error "Unexpected token f in JSON"
      else if c = 'n' then
        if rest.take 3 = ['u', 'l', 'l'] then .ok (.null, rest.drop 3)
        else .error "Unexpected token n in JSON"
      else if c = '-' ∨ c.isDigit then
        (parseNumberTok (c :: rest)).map (fun p => (.num p.1, p.2))
      else .error ("Unexpected token " ++ String.singleton c ++ " in JSON")

/-- Object after the opening brace. -/
def parseObjectF : ℕ → List Char → Except String (Value × List Char)
  | 0, _ => .error "Unexpected end of JSON input"
  | fuel + 1, cs =>
    match skipJsonWs cs with
    | [] => .error "Unexpected end of JSON input"
    | c :: rest =>
      if c = '}' then .ok (.obj [], rest)
      else
        (parseMembersF fuel (c :: rest)).map (fun p => (.obj p.1, p.2))

/-- Members of an object (at least one `"key": value` pair; JS would keep
only the last of duplicate keys, this model keeps the pair list). -/
def parseMembersF : ℕ → List Char → Except String (List (String × Value) × List Char)
  | 0, _ => .error "Unexpected end of JSON input"
  | fuel + 1, cs =>
    match skipJsonWs cs with
    | [] => .error "Unexpected end of JSON input"
    | c :: rest =>
      if c = '"' then
        match parseStringBody (rest.length + 1) rest with
        | .error e => .error e
        | .ok (key, rest2) =>
          match skipJsonWs rest2 with
          | ':' :: rest3 =>
            (match parseValueF fuel rest3 with
             | .error e => .error e
             | .ok (v, rest4) =>
               match skipJsonWs rest4 with
               | ',' :: rest5 =>
                 (match parseMembersF fuel rest5 with
                  | .error e => .error e
                  | .ok (fields, rest6) => .ok ((String.mk key, v) :: fields, rest6))
               | '}' :: rest5 => .ok ([(String.mk key, v)], rest5)
               | c2 :: _ => .error ("Unexpected token " ++ String.singleton c2 ++ " in JSON")
               | [] => .error "Unexpected end of JSON input")
          | c2 :: _ => .error ("Unexpected token " ++ String.singleton c2 ++ " in JSON")
          | [] => .error "Unexpected end of JSON input"
      else .error ("Unexpected token " ++ String.singleton c ++ " in JSON")

/-- Array after the opening bracket. -/
def parseArrayF : ℕ → List Char → Except String (Value × List Char)
  | 0, _ => .error "Unexpected end of JSON input"
  | fuel + 1, cs =>
    match skipJsonWs cs with
    | [] => .error "Unexpected end of JSON input"
    | c :: rest =>
      if c = ']' then .ok (.arr [], rest)
      else
        (parseElementsF fuel (c :: rest)).map (fun p => (.arr p.1, p.2))

/-- Elements of an array (at least one value). -/
def parseElementsF : ℕ → List Char → Except String (List Value × List Char)
  | 0, _ => .error "Unexpected end of JSON input"
  | fuel + 1, cs =>
    match parseValueF fuel cs with
    | .error e => .error e
    | .ok (v, rest) =>
      match skipJsonWs rest with
      | ',' :: rest2 =>
        (match parseElementsF fuel rest2 with
         | .error e => .error e
         | .ok (vs, rest3) => .ok (v :: vs, rest3))
      | ']' :: rest2 => .ok ([v], rest2)
      | c :: _ => .error ("Unexpected token " ++ String.singleton c ++ " in JSON")
      | [] => .error "Unexpected end of JSON input"
end

/-- Model of `JSON.parse`: parse one value and require only whitespace to
follow; the error string stands for the engine's `SyntaxError` message. -/
def jsonParse (s : String) : Except String Value :=
  match parseValueF (2 * s.data.length + 2) s.data with
  | .error e => .error e
  | .ok (v, rest) =>
    match skipJsonWs rest with
    | [] => .ok v
    | c :: _ => .error ("Unexpected token " ++ String.singleton c ++ " in JSON")

/-- Embedding of `parseJSON`: empty/whitespace-only input returns a
dedicated message without invoking the parser; a parser error is classified
by `formatErrorMessage`; a parsed value goes through table extraction. -/
def parseJSON (jsonString : String) : ParseResult :=
  if jsTrim jsonString = "" then
    { success := false, data := none,
      error := some "JSON 데이터가 입력되지 않았습니다.",
      rowCount := 0, columnCount := 0 }
  else
    match jsonParse jsonString with
    | .error m =>
      { success := false, data := none, error := some (formatErrorMessage m),
        rowCount := 0, columnCount := 0 }
    | .ok v => parseResultOfValue v

/-- Membership of a message in the six classes of C7: the five fixed
classified messages, or the generic class carrying the raw parser text. -/
def classifiedMessage (e : String) : Prop :=
  e = "JSON 형식이 올바르지 않습니다. 문법 오류를 확인해주세요."
  ∨ e = "JSON 데이터가 완전하지 않습니다. 닫는 괄호나 따옴표를 확인해주세요."
  ∨ e = "문자열 형식이 올바르지 않습니다. 따옴표를 확인해주세요."
  ∨ e = "숫자 형식이 올바르지 않습니다."
  ∨ e = "예약어나 잘못된 식별자가 사용되었습니다."
  ∨ ∃ raw, e = "JSON 파싱 오류: " ++ raw

/-- Statement of C7 as claimed: for every input string that is not valid
JSON, `parseJSON` fails with null data, zero rows, and a message obtained
from the low-level parser message by `formatErrorMessage`, falling into one
of the six classes. -/
def parseFailureClassified (s : String) : Prop :=
  (jsonParse s).isOk = false →
    ∃ m, parseJSON s
        = { success := false, data := none, error := some (formatErrorMessage m),
            rowCount := 0, columnCount := 0 }
      ∧ classifiedMessage (formatErrorMessage m)

theorem formatErrorMessage_ne_empty_msg (m : String) :
    formatErrorMessage m ≠ "JSON 데이터가 입력되지 않았습니다." := by
  unfold formatErrorMessage
  split_ifs
  · decide
  · decide
  · decide
  · decide
  · decide
  · intro h
    have hd : ("JSON 파싱 오류: ".data).IsPrefix
        ("JSON 데이터가 입력되지 않았습니다.".data) := by
      have h2 := congrArg String.data h
      rw [String.data_append] at h2
      exact ⟨m.data, h2⟩
    have : ("JSON 파싱 오류: ".data).isPrefixOf
        ("JSON 데이터가 입력되지 않았습니다.".data) = true :=
      List.isPrefixOf_iff_prefix.mpr hd
    exact absurd this (by decide)

/-- C7 counterexample.  The empty string is not valid JSON, yet `parseJSON`
short-circuits on `jsonString.trim() === ''` and returns the dedicated
message `JSON 데이터가 입력되지 않았습니다.` without invoking the parser:
that message is none of the five fixed classified messages and does not
carry the generic `JSON 파싱 오류: ` prefix, so it is not obtained by
pattern-matching any parser message. -/
theorem C7_counterexample : ¬ parseFailureClassified "" := by
  intro h
  obtain ⟨m, heq, _⟩ := h (by rfl)
  have hrec : parseJSON ""
      = { success := false, data := none,
          error := some "JSON 데이터가 입력되지 않았습니다.",
          rowCount := 0, columnCount := 0 } := rfl
  rw [hrec] at heq
  have herr : (some "JSON 데이터가 입력되지 않았습니다." : Option String)
      = some (formatErrorMessage m) := congrArg ParseResult.error heq
  exact formatErrorMessage_ne_empty_msg m (Option.some.inj herr).symm

/-- C7 (amended).  For every input whose trimmed text is non-empty, if the
text is not syntactically valid JSON then `parseJSON` returns a failure
(`success = false`) with null data and zero rows, carrying the
human-readable message obtained by pattern-matching the parser's message
into one of the six classes (the five fixed messages or the generic class
with the raw message); empty or whitespace-only input instead yields a
dedicated empty-input message without invoking the parser. -/
theorem C7_parse_failure_classified (s m : String)
    (hne : jsTrim s ≠ "")
    (hp : jsonParse s = .error m) :
    parseJSON s
      = { success := false, data := none, error := some (formatErrorMessage m),
          rowCount := 0, columnCount := 0 }
    ∧ classifiedMessage (formatErrorMessage m)
    ∧ parseJSON ""
      = { success := false, data := none,
          error := some "JSON 데이터가 입력되지 않았습니다.",
          rowCount := 0, columnCount := 0 } := by
  refine ⟨?_, ?_, rfl⟩
  · unfold parseJSON
    rw [if_neg hne, hp]
  · unfold classifiedMessage formatErrorMessage
    split_ifs
    · exact Or.inl rfl
    · exact Or.inr (Or.inl rfl)
    · exact Or.inr (Or.inr (Or.inl rfl))
    · exact Or.inr (Or.inr (Or.inr (Or.inl rfl)))
    · exact Or.inr (Or.inr (Or.inr (Or.inr (Or.inl rfl))))
    · exact Or.inr (Or.inr (Or.inr (Or.inr (Or.inr ⟨m, rfl⟩))))

theorem C7_parse_failure_classified_witness :
    (jsTrim "\x7b\"a\":\x7d" ≠ ""
      ∧ jsonParse "\x7b\"a\":\x7d" = .error "Unexpected token \x7d in JSON")
    ∧ parseJSON "\x7b\"a\":\x7d"
      = { success := false, data := none,
          error := some (formatErrorMessage "Unexpected token \x7d in JSON"),
          rowCount := 0, columnCount := 0 } :=
  ⟨⟨by decide, rfl⟩,
    (C7_parse_failure_classified "\x7b\"a\":\x7d" "Unexpected token \x7d in JSON"
      (by decide) rfl).1⟩

end JsonTable

